import Mathlib

/-!
Verification of the Terraform-migration text-processing engine:
the block splitter (tf_splitter.py), the attribute extractor
(generate_outputs.py) and the dependency-graph builder
(dependency_graph.py), shallowly embedded over line lists and
character lists.

Conventions: a file's content is modelled as its list of lines
(Python `content.split('\n')`); characters are handled through
`String.toList`.  Braces inside string literals are written with
the escapes `\x7b` (open) and `\x7d` (close).
-/

namespace TfScripts

/-- Python `\s` whitespace class (ASCII). -/
def pyIsSpace (c : Char) : Bool :=
  c = (' ') || c = ('\t') || c = ('\n') || c = ('\r') || c = ('\x0b') || c = ('\x0c')

def lbrace : Char := ('\x7b')

def rbrace : Char := ('\x7d')

def dquote : Char := ('"')

def dotChar : Char := ('.')

/-- Count occurrences of a character, Python `line.count(c)`. -/
def countChar (c : Char) : List Char → Nat
  | [] => 0
  | d :: ds => (if d = c then 1 else 0) + countChar c ds

/-- Net brace contribution of one line: `line.count('{') - line.count('}')`. -/
def braceNet (l : String) : Int :=
  (countChar lbrace l.toList : Int) - (countChar rbrace l.toList : Int)

/-- Whether a line contains an opening brace (sets `started` in the source). -/
def hasOpen (l : String) : Bool :=
  decide (0 < countChar lbrace l.toList)

/-- Match a literal keyword prefix, returning the rest of the characters. -/
def expectStr : List Char → List Char → Option (List Char)
  | [], cs => some cs
  | _ :: _, [] => none
  | k :: ks, c :: cs => if c = k then expectStr ks cs else none

/-- Consume one or more `\s` characters (regex `\s+`). -/
def skipWs1 : List Char → Option (List Char)
  | [] => none
  | c :: cs => if pyIsSpace c then some (cs.dropWhile pyIsSpace) else none

/-- Consume zero or more `\s` characters (regex `\s*`). -/
def skipWs (cs : List Char) : List Char := cs.dropWhile pyIsSpace

/-- Match `"([^"]+)"`: a quoted, non-empty, quote-free capture
(greedy `[^"]+` up to the closing quote). -/
def quoted (cs : List Char) : Option (String × List Char) :=
  match cs with
  | [] => none
  | c :: cs1 =>
    if c = dquote then
      match cs1.dropWhile (fun d => !(d = dquote)) with
      | [] => none
      | _ :: rest1 =>
        if (cs1.takeWhile (fun d => !(d = dquote))).isEmpty then none
        else some (String.mk (cs1.takeWhile (fun d => !(d = dquote))), rest1)
    else none

/-- Require an opening brace next (regex `\{`). -/
def expectLBrace : List Char → Bool
  | [] => false
  | c :: _ => c = lbrace

/-- One alternative of
`resource_pattern = r'^(resource|data)\s+"([^"]+)"\s+"([^"]+)"\s*\{'`. -/
def tryResourceKw (kw : String) (l : String) : Option (String × String × String) :=
  match expectStr kw.toList l.toList with
  | none => none
  | some r1 =>
    match skipWs1 r1 with
    | none => none
    | some r2 =>
      match quoted r2 with
      | none => none
      | some (rtype, r3) =>
        match skipWs1 r3 with
        | none => none
        | some r4 =>
          match quoted r4 with
          | none => none
          | some (rname, r5) =>
            if expectLBrace (skipWs r5) then some (kw, rtype, rname) else none

/-- tf_splitter.py: `resource_pattern` applied with `re.match`.
Returns (block kind, resource type, resource name). -/
def matchResourceHeader (l : String) : Option (String × String × String) :=
  match tryResourceKw ("resource") l with
  | some r => some r
  | none => tryResourceKw ("data") l

/-- One alternative of `other_block_pattern =
r'^(variable|output|locals|terraform|provider|module)\s*(?:"([^"]+)")?\s*\{'`
(the optional quoted group backtracks to empty unless a complete
`"name"`-then-`{` parse succeeds). -/
def tryOtherKw (kw : String) (l : String) : Option (String × Option String) :=
  match expectStr kw.toList l.toList with
  | none => none
  | some r1 =>
    match skipWs r1 with
    | [] => none
    | c :: r2tail =>
      if c = dquote then
        match quoted (c :: r2tail) with
        | none => none
        | some (nm, r3) =>
          if expectLBrace (skipWs r3) then some (kw, some nm) else none
      else if expectLBrace (c :: r2tail) then some (kw, none) else none

/-- tf_splitter.py: `other_block_pattern` applied with `re.match`.
Returns (block kind, optional name). -/
def matchOtherHeader (l : String) : Option (String × Option String) :=
  (([("variable"), ("output"), ("locals"), ("terraform"), ("provider"), ("module")] :
      List String).findSome? (fun kw => tryOtherKw kw l))

/-- A top-level block as extracted by `parse_tf_blocks`, enriched with its
source line span. -/
structure Block where
  block_type : String
  resource_type : Option String
  resource_name : Option String
  blines : List String
  startIdx : Nat
  endIdx : Nat
deriving Repr, DecidableEq

/-- tf_splitter.py `extract_block` body loop: accumulate lines, counting
braces, until the count returns to zero after the first `{`.
Returns the block's lines and the number of lines consumed. -/
def extractBlockAux : List String → Int → Bool → List String × Nat
  | [], _, _ => ([], 0)
  | l :: ls, count, started =>
    let count1 := count + braceNet l
    let started1 := started || hasOpen l
    if started1 && count1 = 0 then ([l], 1)
    else
      let (bls, n) := extractBlockAux ls count1 started1
      (l :: bls, n + 1)

/-- tf_splitter.py `extract_block` viewed from the block's first line:
if the input runs out before balance is restored, everything is returned. -/
def extractBlock (ls : List String) : List String × Nat :=
  extractBlockAux ls 0 false

/-- tf_splitter.py `parse_tf_blocks` scanning loop, structurally on the
remaining lines; `i` is the absolute index of the first remaining line. -/
def parseAux : Nat → List String → Nat → List Block
  | 0, _, _ => []
  | _ + 1, [], _ => []
  | fuel + 1, l :: rest, i =>
    match matchResourceHeader l with
    | some (bt, rt, rn) =>
      { block_type := bt, resource_type := some rt, resource_name := some rn,
        blines := (extractBlock (l :: rest)).1, startIdx := i,
        endIdx := i + (extractBlock (l :: rest)).2 - 1 } ::
        parseAux fuel (List.drop (extractBlock (l :: rest)).2 (l :: rest))
          (i + (extractBlock (l :: rest)).2)
    | none =>
      match matchOtherHeader l with
      | some (bt, nm) =>
        { block_type := bt, resource_type := none, resource_name := nm,
          blines := (extractBlock (l :: rest)).1, startIdx := i,
          endIdx := i + (extractBlock (l :: rest)).2 - 1 } ::
          parseAux fuel (List.drop (extractBlock (l :: rest)).2 (l :: rest))
            (i + (extractBlock (l :: rest)).2)
      | none => parseAux fuel rest (i + 1)

/-- `parse_tf_blocks` on a file already split into lines. -/
def parseBlocks (lines : List String) : List Block :=
  parseAux lines.length lines 0

/-- Python `content.split('\n')`, character level helper. -/
def splitLinesAux : List Char → List Char → List String
  | [], acc => [String.mk acc.reverse]
  | c :: cs, acc =>
    if c = ('\n') then String.mk acc.reverse :: splitLinesAux cs []
    else splitLinesAux cs (c :: acc)

/-- Python `content.split('\n')`. -/
def pySplitLines (s : String) : List String := splitLinesAux s.toList []

/-- tf_splitter.py `parse_tf_blocks` on raw content. -/
def parse_tf_blocks (content : String) : List Block :=
  parseBlocks (pySplitLines content)

/-! ### Attribute extractor (generate_outputs.py `TerraformParser`) -/

/-- generate_outputs.py: the per-line pattern
`rf'^\s*{attr_name}\s*=\s*"([^"]+)"'` applied with `pattern.match(line)`. -/
def matchAttrLine (attrName : String) (l : String) : Option String := do
  let r1 := skipWs l.toList
  let r2 ← expectStr attrName.toList r1
  let r3 := skipWs r2
  match r3 with
  | [] => none
  | c :: r4 =>
    if c = ('=') then
      let (v, _) ← quoted (skipWs r4)
      some v
    else none

/-- generate_outputs.py `_extract_top_level_attribute` line loop: test the
pattern at depth 0 before updating the depth with the line's braces. -/
def attrScan (attrName : String) : List String → Int → Option String
  | [], _ => none
  | l :: ls, depth =>
    if depth = 0 then
      match matchAttrLine attrName l with
      | some v => some v
      | none => attrScan attrName ls (depth + braceNet l)
    else attrScan attrName ls (depth + braceNet l)

/-- generate_outputs.py `TerraformParser._extract_top_level_attribute`. -/
def extract_top_level_attribute (blockContent : String) (attrName : String) :
    Option String :=
  attrScan attrName (pySplitLines blockContent) 0

/-- Each line of a body paired with the brace depth at which the line is
entered (depth 0 = directly inside the block). -/
def depthAnnotate : List String → Int → List (Int × String)
  | [], _ => []
  | l :: ls, d => (d, l) :: depthAnnotate ls (d + braceNet l)

/-- Spec-side reading of §4.2 sentence "for each line, first test whether
depth==0 and the line matches": the first depth-zero line that matches. -/
def firstDepthZeroAttr (attrName : String) (lines : List String) : Option String :=
  (depthAnnotate lines 0).findSome?
    (fun p => if p.1 = 0 then matchAttrLine attrName p.2 else none)

/-- Spec-side reading of the claim "the last depth-zero occurrence wins":
the last depth-zero line that matches. -/
def lastDepthZeroAttr (attrName : String) (lines : List String) : Option String :=
  (depthAnnotate lines 0).reverse.findSome?
    (fun p => if p.1 = 0 then matchAttrLine attrName p.2 else none)

/-! ### Classifier (tf_splitter.py `build_type_to_file_map`, `get_target_file`) -/

/-- Python dict assignment `d[k] = v`: replace in place if the key exists
(keeping its position), otherwise append. -/
def dictInsert (d : List (String × String)) (k v : String) : List (String × String) :=
  if d.any (fun p => p.1 = k) then
    d.map (fun p => if p.1 = k then (k, v) else p)
  else d ++ [(k, v)]

/-- Python dict lookup `d[k]` / `k in d` (first matching entry). -/
def dictLookup : List (String × String) → String → Option String
  | [], _ => none
  | p :: d, k => if p.1 = k then some p.2 else dictLookup d k

/-- The classification configuration (`resource_mapping.yaml` contents):
`mappings`, `default_file`, `skip_types`. -/
structure SplitConfig where
  mappings : List (String × List String)
  default_file : String
  skip_types : List String
deriving Repr, DecidableEq

/-- tf_splitter.py `build_type_to_file_map`: reverse index from resource type
to target file, built in configuration order. -/
def build_type_to_file_map (cfg : SplitConfig) : List (String × String) :=
  cfg.mappings.foldl
    (fun acc p => p.2.foldl (fun acc2 rtype => dictInsert acc2 rtype p.1) acc) []

/-- Python `s.startswith(pre)`. -/
def pyStartsWith (s pre : String) : Bool := pre.toList.isPrefixOf s.toList

/-- tf_splitter.py `get_target_file`: skip check, then direct match, then
first prefix match in index order, then the default file. -/
def get_target_file (resource_type : String) (type_to_file : List (String × String))
    (default_file : String) (skip_types : List String) : Option String :=
  if skip_types.contains resource_type then none
  else
    match dictLookup type_to_file resource_type with
    | some f => some f
    | none =>
      match type_to_file.find? (fun p => pyStartsWith resource_type p.1) with
      | some p => some p.2
      | none => some default_file

/-! ### Splitting (tf_splitter.py `split_terraform_file`) -/

/-- Resource or data block (the `block_type in ('resource', 'data')` test). -/
def isRD (b : Block) : Bool :=
  b.block_type = ("resource") || b.block_type = ("data")

/-- The dedicated files of the special (non-resource) block kinds. -/
def specialTarget (bt : String) : Option String :=
  if bt = ("terraform") then some ("versions.tf")
  else if bt = ("provider") then some ("providers.tf")
  else if bt = ("variable") then some ("variables.tf")
  else if bt = ("output") then some ("outputs.tf")
  else if bt = ("locals") then some ("locals.tf")
  else if bt = ("module") then some ("modules.tf")
  else none

/-- The grouping loop of `split_terraform_file`: resource/data blocks are
routed by `get_target_file` (or recorded as skipped), special blocks are
collected separately (they are appended to `file_blocks` after the loop).
Returns (resource assignments, special assignments, skipped). -/
def splitLoop (ttf : List (String × String)) (df : String) (sk : List String) :
    List Block →
      List (String × List String) × List (String × List String) × List (String × String)
  | [] => ([], [], [])
  | b :: bs =>
    let (fs, sp, skd) := splitLoop ttf df sk bs
    if isRD b then
      match get_target_file (b.resource_type.getD ("")) ttf df sk with
      | some t => ((t, b.blines) :: fs, sp, skd)
      | none => (fs, sp, (b.resource_type.getD (""), b.resource_name.getD ("")) :: skd)
    else
      match specialTarget b.block_type with
      | some t => (fs, (t, b.blines) :: sp, skd)
      | none => (fs, sp, skd)

/-- Contribution of one block to the bucket lists (resource/data case). -/
def rdProj (ttf : List (String × String)) (df : String) (sk : List String)
    (b : Block) : Option (String × List String) :=
  if isRD b then
    (get_target_file (b.resource_type.getD ("")) ttf df sk).map (fun t => (t, b.blines))
  else none

/-- Contribution of one block to the special bucket lists. -/
def spProj (b : Block) : Option (String × List String) :=
  if isRD b then none
  else (specialTarget b.block_type).map (fun t => (t, b.blines))

/-- Contribution of one block to the skipped list. -/
def skProj (ttf : List (String × String)) (df : String) (sk : List String)
    (b : Block) : Option (String × String) :=
  if isRD b then
    match get_target_file (b.resource_type.getD ("")) ttf df sk with
    | some _ => none
    | none => some (b.resource_type.getD (""), b.resource_name.getD (""))
  else none

/-- All bucket assignments, resource/data first, then specials, as in the
source (special blocks are appended to `file_blocks` after the main loop). -/
def splitAssignments (ttf : List (String × String)) (df : String)
    (sk : List String) (bs : List Block) : List (String × List String) :=
  (splitLoop ttf df sk bs).1 ++ (splitLoop ttf df sk bs).2.1

/-- A line that starts a block in `parse_tf_blocks` (either pattern). -/
def headerMatches (l : String) : Bool :=
  (matchResourceHeader l).isSome || (matchOtherHeader l).isSome

/-! ### Output files and the round trip (tf_splitter.py file writing) -/

/-- Python `'\n\n'.join(texts)` at the line level: a blank line between
consecutive blocks. -/
def interBlanks : List (List String) → List String
  | [] => []
  | [c] => c
  | c :: cs => c ++ (("") :: interBlanks cs)

/-- The lines of one written bucket file: blocks joined by blank lines plus
the trailing newline (`f.write('\n\n'.join(...)); f.write('\n')`). -/
def fileLinesOf (chunks : List (List String)) : List String :=
  interBlanks chunks ++ [("")]

/-- First-occurrence deduplication, with the already-seen keys carried
along (Python dict key order). -/
def dedupKeepFirstAux (seen : List String) : List String → List String
  | [] => []
  | x :: xs =>
    if seen.contains x then dedupKeepFirstAux seen xs
    else x :: dedupKeepFirstAux (x :: seen) xs

/-- First-occurrence deduplication (Python dict key order). -/
def dedupKeepFirst (l : List String) : List String := dedupKeepFirstAux [] l

/-- Lexicographic character-list comparison (Python string `<`). -/
def lexLt : List Char → List Char → Bool
  | [], [] => false
  | [], _ :: _ => true
  | _ :: _, [] => false
  | a :: as, b :: bs => if a < b then true else if a = b then lexLt as bs else false

/-- Python `a <= b` on strings. -/
def strLeB (a b : String) : Bool := !(lexLt b.toList a.toList)

/-- Stable insertion into a sorted list. -/
def insertLe {α : Type} (le : α → α → Bool) (x : α) : List α → List α
  | [] => [x]
  | y :: ys => if le x y then x :: y :: ys else y :: insertLe le x ys

/-- Stable insertion sort (models Python `sorted`). -/
def sortLe {α : Type} (le : α → α → Bool) : List α → List α
  | [] => []
  | x :: xs => insertLe le x (sortLe le xs)

/-- tf_splitter.py `split_terraform_file` output files: one entry per bucket
file name (in sorted order, as written), carrying the file's lines. -/
def splitFilesLines (lines : List String) (cfg : SplitConfig) :
    List (String × List String) :=
  let asg := splitAssignments (build_type_to_file_map cfg) cfg.default_file
    cfg.skip_types (parseBlocks lines)
  (sortLe strLeB (dedupKeepFirst (asg.map (fun p => p.1)))).map
    (fun f => (f, fileLinesOf ((asg.filter (fun p => p.1 = f)).map (fun p => p.2))))

/-- Concatenating written files (each ends in a newline) at the line level. -/
def concatFilesLines (files : List (List String)) : List String :=
  (files.map List.dropLast).flatten ++ [("")]

/-- A block body that closes exactly at its last line: the brace count first
returns to zero (after the first `{`) on the final line. -/
def pcAux : List String → Int → Bool → Bool
  | [], _, _ => false
  | l :: ls, count, started =>
    let count1 := count + braceNet l
    let started1 := started || hasOpen l
    if started1 && count1 = 0 then ls.isEmpty
    else pcAux ls count1 started1

/-- Properly closed block text (extraction ended by brace balance, not by
end of input). -/
def properClose (ls : List String) : Bool := pcAux ls 0 false

/-- The block's first line matches the same header data the parser stored. -/
def blockHeaderOk (b : Block) : Bool :=
  match b.blines with
  | [] => false
  | l :: _ =>
    match matchResourceHeader l with
    | some (bt, rt, rn) =>
      b.block_type = bt && b.resource_type = some rt && b.resource_name = some rn
    | none =>
      match matchOtherHeader l with
      | some (bt, nm) =>
        b.block_type = bt && b.resource_type = none && b.resource_name = nm
      | none => false

/-- The identifying fields of a block (kind, type, instance name). -/
def blockMeta (b : Block) : String × Option String × Option String :=
  (b.block_type, b.resource_type, b.resource_name)

/-- The `type.name` address of a resource/data block meta. -/
def addrMeta (m : String × Option String × Option String) : Option String :=
  if m.1 = ("resource") || m.1 = ("data") then
    match m.2.1, m.2.2 with
    | some t, some n => some (t ++ (".") ++ n)
    | _, _ => none
  else none

/-- The metas of a block list. -/
def metaList (bs : List Block) : List (String × Option String × Option String) :=
  bs.map blockMeta

/-- The resource/data addresses of a block list, in order. -/
def addressList (bs : List Block) : List String :=
  bs.filterMap (fun b => addrMeta (blockMeta b))

/-! ### Dependency graph (dependency_graph.py) -/

/-- dependency_graph.py: `['var', 'local', 'data', 'module', 'each', 'count']`. -/
def reservedWords : List String :=
  [("var"), ("local"), ("data"), ("module"), ("each"), ("count")]

/-- Character class `[a-z_]` (first/third capture groups of the reference
pattern). -/
def isG1Char (c : Char) : Bool := (('a') ≤ c && c ≤ ('z')) || c = ('_')

/-- Character class `[a-z0-9_-]` (second capture group). -/
def isG2Char (c : Char) : Bool :=
  isG1Char c || (('0') ≤ c && c ≤ ('9')) || c = ('-')

/-- Regex `\w` (word character, ASCII) for the `\b` boundary. -/
def isWordChar (c : Char) : Bool := c.isAlphanum || c = ('_')

/-- One attempt of `r'\b([a-z_]+)\.([a-z0-9_-]+)(?:\.([a-z_]+))?'` at a
fixed position starting with `c` (the boundary `\b` already checked by the
caller).  Returns the two captures, the rest of the input after the match,
and the last matched character (for the next boundary). -/
def tryRefMatch (c : Char) (cs : List Char) :
    Option ((String × String) × List Char × Char) :=
  if isG1Char c then
    match (c :: cs).dropWhile isG1Char with
    | d :: rest2 =>
      if d = dotChar then
        if (rest2.takeWhile isG2Char).isEmpty then none
        else
          match rest2.dropWhile isG2Char with
          | e :: rest5 =>
            if e = dotChar && !(rest5.takeWhile isG1Char).isEmpty then
              some ((String.mk ((c :: cs).takeWhile isG1Char),
                  String.mk (rest2.takeWhile isG2Char)),
                rest5.dropWhile isG1Char,
                ((rest5.takeWhile isG1Char).getLast?).getD c)
            else
              some ((String.mk ((c :: cs).takeWhile isG1Char),
                  String.mk (rest2.takeWhile isG2Char)),
                e :: rest5, ((rest2.takeWhile isG2Char).getLast?).getD c)
          | [] =>
            some ((String.mk ((c :: cs).takeWhile isG1Char),
                String.mk (rest2.takeWhile isG2Char)),
              [], ((rest2.takeWhile isG2Char).getLast?).getD c)
      else none
    | [] => none
  else none

/-- dependency_graph.py: `re.finditer` of the reference pattern over a body,
keeping the first two capture groups.  `prevWord` says whether the previous
character was a word character (for the `\b` boundary); after a match the
scan resumes at the match end. -/
def findRefsAux : Nat → List Char → Bool → List (String × String)
  | 0, _, _ => []
  | _ + 1, [], _ => []
  | fuel + 1, c :: cs, prevWord =>
    if prevWord then findRefsAux fuel cs (isWordChar c)
    else
      match tryRefMatch c cs with
      | some (m, rest, lastC) => m :: findRefsAux fuel rest (isWordChar lastC)
      | none => findRefsAux fuel cs (isWordChar c)

/-- All reference tokens of one body, in scan order. -/
def findRefs (body : String) : List (String × String) :=
  findRefsAux body.toList.length body.toList false

/-- One attempt of the resource-block pattern
`r'resource\s+"([^"]+)"\s+"([^"]+)"\s*\{([^}]*(?:\{[^}]*\}[^}]*)*)\}'` at a
fixed position.  Because `[^}]` also matches `{`, the greedy engine always
closes the body at the FIRST `}` after the opening brace; the nested-brace
alternative never fires.  Returns the captures and the rest of the input. -/
def tryResourceMatch (cs : List Char) : Option ((String × String × String) × List Char) :=
  match expectStr ("resource").toList cs with
  | none => none
  | some r1 =>
    match skipWs1 r1 with
    | none => none
    | some r2 =>
      match quoted r2 with
      | none => none
      | some (t, r3) =>
        match skipWs1 r3 with
        | none => none
        | some r4 =>
          match quoted r4 with
          | none => none
          | some (n, r5) =>
            match skipWs r5 with
            | [] => none
            | c :: r7 =>
              if c = lbrace then
                match r7.dropWhile (fun d => !(d = rbrace)) with
                | [] => none
                | _ :: rest2 =>
                  some ((t, n, String.mk (r7.takeWhile (fun d => !(d = rbrace)))),
                    rest2)
              else none

/-- dependency_graph.py `_parse_file`: scan the content for matches of the
resource pattern (advancing one character on failure, to the match end on
success). -/
def findResourceBlocksAux : Nat → List Char → List (String × String × String)
  | 0, _ => []
  | _ + 1, [] => []
  | fuel + 1, c :: cs =>
    match tryResourceMatch (c :: cs) with
    | some (m, rest) => m :: findResourceBlocksAux fuel rest
    | none => findResourceBlocksAux fuel cs

/-- The `(type, name, body)` triples found in one unit's content. -/
def findResourceBlocks (content : String) : List (String × String × String) :=
  findResourceBlocksAux content.toList.length content.toList

/-- `self.resources[f"{type}.{name}"] = body` over all matches (Python dict:
later duplicates overwrite in place). -/
def buildResources (ms : List (String × String × String)) : List (String × String) :=
  ms.foldl (fun acc m => dictInsert acc (m.1 ++ (".") ++ m.2.1) m.2.2) []

/-- Add to a Python set (modelled as a deduplicated list in insertion
order). -/
def dedupAdd (l : List String) (x : String) : List String :=
  if l.contains x then l else l ++ [x]

/-- dependency_graph.py `_extract_dependencies` inner loop for one resource:
keep a token as a dependency iff its head is not a reserved word, the
candidate `type.name` is a known resource, and it is not a self-reference. -/
def depsForBody (resources : List (String × String)) (rid : String)
    (body : String) : List String :=
  (findRefs body).foldl
    (fun acc p =>
      if reservedWords.contains p.1 then acc
      else
        if (resources.any (fun q => q.1 = p.1 ++ (".") ++ p.2)) &&
            !(p.1 ++ (".") ++ p.2 = rid) then
          dedupAdd acc (p.1 ++ (".") ++ p.2)
        else acc) []

/-- dependency_graph.py `_extract_dependencies`: the defaultdict holds an
entry exactly for the resources that gained at least one dependency. -/
def extractDependencies (resources : List (String × String)) :
    List (String × List String) :=
  resources.filterMap (fun p =>
    let ds := depsForBody resources p.1 p.2
    if ds.isEmpty then none else some (p.1, ds))

/-- The parser state after `TerraformDependencyParser.parse` on one unit. -/
structure DepState where
  resources : List (String × String)
  dependencies : List (String × List String)
deriving Repr, DecidableEq

/-- `_parse_file` then `_extract_dependencies` on one unit's content. -/
def parseUnit (content : String) : DepState :=
  let rs := buildResources (findResourceBlocks content)
  DepState.mk rs (extractDependencies rs)

/-- The node identifiers emitted by `DotGraphGenerator.generate` (one node
line per key of `resources`). -/
def dotNodeIds (st : DepState) : List String :=
  st.resources.map (fun p => p.1)

/-- The node identifiers emitted by `MermaidGraphGenerator.generate`. -/
def mermaidNodeIds (st : DepState) : List String :=
  st.resources.map (fun p => p.1)

/-- `self.parser.dependencies.get(r, set())` as a list. -/
def dictLookupL (d : List (String × List String)) (k : String) :
    Option (List String) :=
  (d.find? (fun p => p.1 = k)).map (fun p => p.2)

/-- Number of outgoing dependency edges of an address. -/
def outDeg (st : DepState) (r : String) : Nat :=
  ((dictLookupL st.dependencies r).getD []).length

/-- The union of all dependency sets (addresses with an incoming edge). -/
def allDepsOf (deps : List (String × List String)) : List String :=
  (deps.map (fun p => p.2)).flatten

/-- `roots = set(resources.keys()) - all_deps`. -/
def rootsOf (st : DepState) : List String :=
  (st.resources.map (fun p => p.1)).filter
    (fun a => !(allDepsOf st.dependencies).contains a)

/-- The selected root set: real roots, or the three addresses with the
fewest outgoing edges when no root exists. -/
def treeRootsSel (st : DepState) : List String :=
  if (rootsOf st).isEmpty then
    (sortLe (fun a b => decide (outDeg st a ≤ outDeg st b))
      (st.resources.map (fun p => p.1))).take 3
  else rootsOf st

/-- The roots in iteration order (`for root in sorted(roots)`). -/
def treeRootsIter (st : DepState) : List String :=
  sortLe strLeB (treeRootsSel st)

mutual

/-- dependency_graph.py `TextTreeGenerator.generate/print_tree`: emit one
`(prefix+connector, id)` entry unless already visited, then recurse into the
dependencies.  The fuel only bounds the recursion depth and is chosen large
enough to never run out. -/
def printTree (deps : List (String × List String)) :
    Nat → String → String → Bool → List String →
      List (String × String) × List String
  | fuel, rid, pre, isLast, visited =>
    if visited.contains rid then ([], visited)
    else
      match fuel with
      | 0 => ([], visited)
      | Nat.succ f =>
        let conn := if isLast then ("└── ") else ("├── ")
        let ext := if isLast then ("    ") else ("│   ")
        let res := printTreeSibs deps f ((dictLookupL deps rid).getD [])
          (pre ++ ext) (rid :: visited)
        ((pre ++ conn, rid) :: res.1, res.2)

/-- The `for i, dep in enumerate(deps)` loop (`is_last` iff last index). -/
def printTreeSibs (deps : List (String × List String)) :
    Nat → List String → String → List String →
      List (String × String) × List String
  | _, [], _, visited => ([], visited)
  | 0, _ :: _, _, visited => ([], visited)
  | Nat.succ f, d :: rest, pre, visited =>
    let r1 := printTree deps f d pre rest.isEmpty visited
    let r2 := printTreeSibs deps f rest pre r1.2
    (r1.1 ++ r2.1, r2.2)

end

/-- A recursion-depth bound that the traversal can never exhaust. -/
def textTreeFuel (st : DepState) : Nat :=
  st.resources.length + (st.dependencies.map (fun p => p.2.length)).sum +
    (treeRootsIter st).length + 2

/-- The `(prefix, id)` node entries of the text tree, over all roots with the
shared visited set. -/
def textTreeNodes (st : DepState) : List (String × String) :=
  (printTreeSibs st.dependencies (textTreeFuel st) (treeRootsIter st) ("") []).1

/-- The fixed vocabulary of block kinds. -/
def allKinds : List String :=
  [("resource"), ("data"), ("variable"), ("output"), ("locals"),
    ("terraform"), ("provider"), ("module")]

/-- The brace count over these lines never returns to zero after the first
opening brace (truncated block). -/
def neverClosesAux : List String → Int → Bool → Bool
  | [], _, _ => true
  | l :: ls, count, started =>
    let count1 := count + braceNet l
    let started1 := started || hasOpen l
    if started1 && count1 = 0 then false else neverClosesAux ls count1 started1

/-- Truncated-input predicate for `extract_block` from its first line. -/
def neverCloses (ls : List String) : Bool := neverClosesAux ls 0 false

end TfScripts

namespace TfScripts

/-! ### Helper lemmas -/

theorem attrScan_eq_firstDepthZero (attrName : String) :
    ∀ (lines : List String) (d : Int),
      attrScan attrName lines d =
        (depthAnnotate lines d).findSome?
          (fun p => if p.1 = 0 then matchAttrLine attrName p.2 else none) := by
  intro lines
  induction lines with
  | nil => intro d; rfl
  | cons l ls ih =>
    intro d
    by_cases hd : d = 0
    · subst hd
      simp only [attrScan, depthAnnotate, List.findSome?, if_pos rfl]
      cases h : matchAttrLine attrName l with
      | some v => simp [h]
      | none => simp [h, ih]
    · simp only [attrScan, depthAnnotate, List.findSome?, if_neg hd, ih]

theorem splitLoop_eq_filterMap (ttf : List (String × String)) (df : String)
    (sk : List String) : ∀ bs : List Block,
    splitLoop ttf df sk bs =
      (bs.filterMap (rdProj ttf df sk), bs.filterMap spProj,
        bs.filterMap (skProj ttf df sk)) := by
  intro bs
  induction bs with
  | nil => rfl
  | cons b bs ih =>
    simp only [splitLoop, ih, List.filterMap_cons]
    by_cases hrd : isRD b
    · simp only [rdProj, spProj, skProj, hrd, if_pos, if_true]
      cases h : get_target_file (b.resource_type.getD ("")) ttf df sk with
      | some t => simp [h]
      | none => simp [h]
    · simp only [rdProj, spProj, skProj, hrd, if_neg, if_false, Bool.false_eq_true]
      cases h : specialTarget b.block_type with
      | some t => simp [h]
      | none => simp [h]

theorem findSome?_eq_none_of_forall {α β : Type} (f : α → Option β) :
    ∀ l : List α, (∀ x ∈ l, f x = none) → l.findSome? f = none := by
  intro l
  induction l with
  | nil => intro _; rfl
  | cons x xs ih =>
    intro h
    have hx := h x (by simp)
    simp only [List.findSome?, hx]
    exact ih (fun y hy => h y (by simp [hy]))

theorem expectStr_eq : ∀ (ks cs r : List Char), expectStr ks cs = some r → cs = ks ++ r := by
  intro ks
  induction ks with
  | nil =>
    intro cs r h
    have h2 : cs = r := by simpa [expectStr] using h
    simp [h2]
  | cons k ks ih =>
    intro cs r h
    cases cs with
    | nil => simp [expectStr] at h
    | cons c cs1 =>
      simp only [expectStr] at h
      by_cases hc : c = k
      · rw [if_pos hc] at h
        rw [hc, List.cons_append]
        exact congrArg _ (ih cs1 r h)
      · rw [if_neg hc] at h
        cases h

theorem skipWs1_suffix (cs r : List Char) (h : skipWs1 cs = some r) : r <:+ cs := by
  cases cs with
  | nil => simp [skipWs1] at h
  | cons c cs1 =>
    simp only [skipWs1] at h
    by_cases hc : pyIsSpace c
    · rw [if_pos hc] at h
      injection h with h
      rw [← h]
      exact (List.dropWhile_suffix pyIsSpace).trans (List.suffix_cons c cs1)
    · rw [if_neg hc] at h
      cases h

theorem quoted_suffix (cs : List Char) (s : String) (r : List Char)
    (h : quoted cs = some (s, r)) : r <:+ cs := by
  unfold quoted at h
  split at h
  · cases h
  · next c cs1 =>
    split at h
    · split at h
      · cases h
      · next x rest1 hrest =>
        split at h
        · cases h
        · injection h with h
          have hr : r = rest1 := (congrArg Prod.snd h).symm
          rw [hr]
          have h1 : rest1 <:+ x :: rest1 := List.suffix_cons x rest1
          have h2 : x :: rest1 <:+ cs1 := hrest ▸ List.dropWhile_suffix _
          exact (h1.trans h2).trans (List.suffix_cons c cs1)
    · cases h

theorem expectLBrace_mem (cs : List Char) (h : expectLBrace cs = true) : lbrace ∈ cs := by
  cases cs with
  | nil => cases h
  | cons c cs1 =>
    simp only [expectLBrace] at h
    have hc : c = lbrace := of_decide_eq_true h
    rw [hc]
    exact List.mem_cons_self lbrace cs1

theorem countChar_pos_of_mem (c : Char) : ∀ l : List Char, c ∈ l → 0 < countChar c l := by
  intro l
  induction l with
  | nil => intro h; cases h
  | cons d ds ih =>
    intro h
    simp only [countChar]
    rcases List.mem_cons.mp h with h | h
    · rw [if_pos (by rw [h])]
      omega
    · have := ih h
      omega

theorem tryResourceKw_shape (kw l bt rt rn : String)
    (h : tryResourceKw kw l = some (bt, rt, rn)) :
    bt = kw ∧ kw.toList <+: l.toList ∧ lbrace ∈ l.toList := by
  unfold tryResourceKw at h
  split at h
  · cases h
  · next r1 h1 =>
    split at h
    · cases h
    · next r2 h2 =>
      split at h
      · cases h
      · next rtype r3 h3 =>
        split at h
        · cases h
        · next r4 h4 =>
          split at h
          · cases h
          · next rname r5 h5 =>
            split at h
            · next hb =>
              injection h with h
              refine ⟨(congrArg (fun p => p.1) h).symm, ?_, ?_⟩
              · exact ⟨r1, (expectStr_eq kw.toList l.toList r1 h1).symm⟩
              · have hm : lbrace ∈ skipWs r5 := expectLBrace_mem _ hb
                have s5 : skipWs r5 <:+ r5 := List.dropWhile_suffix pyIsSpace
                have s4 : r5 <:+ r4 := quoted_suffix r4 rname r5 h5
                have s3 : r4 <:+ r3 := skipWs1_suffix r3 r4 h4
                have s2 : r3 <:+ r2 := quoted_suffix r2 rtype r3 h3
                have s1 : r2 <:+ r1 := skipWs1_suffix r1 r2 h2
                have s0 : r1 <:+ l.toList := by
                  rw [expectStr_eq kw.toList l.toList r1 h1]
                  exact List.suffix_append kw.toList r1
                exact s0.subset (s1.subset (s2.subset (s3.subset
                  (s4.subset (s5.subset hm)))))
            · cases h

theorem tryOtherKw_shape (kw l bt : String) (nm : Option String)
    (h : tryOtherKw kw l = some (bt, nm)) :
    bt = kw ∧ kw.toList <+: l.toList ∧ lbrace ∈ l.toList := by
  unfold tryOtherKw at h
  split at h
  · cases h
  · next r1 h1 =>
    have hpre : kw.toList <+: l.toList :=
      ⟨r1, (expectStr_eq kw.toList l.toList r1 h1).symm⟩
    have s0 : r1 <:+ l.toList := by
      rw [expectStr_eq kw.toList l.toList r1 h1]
      exact List.suffix_append kw.toList r1
    split at h
    · cases h
    · next c r2tail hr2 =>
      have t1 : (c :: r2tail) <:+ r1 := hr2 ▸ List.dropWhile_suffix pyIsSpace
      split at h
      · split at h
        · cases h
        · next nm2 r3 h3 =>
          split at h
          · next hb =>
            injection h with h
            refine ⟨(congrArg (fun p => p.1) h).symm, hpre, ?_⟩
            have hm : lbrace ∈ skipWs r3 := expectLBrace_mem _ hb
            have t3 : skipWs r3 <:+ r3 := List.dropWhile_suffix pyIsSpace
            have t2 : r3 <:+ c :: r2tail := quoted_suffix (c :: r2tail) nm2 r3 h3
            exact s0.subset (t1.subset (t2.subset (t3.subset hm)))
          · cases h
      · split at h
        · next hb =>
          injection h with h
          refine ⟨(congrArg (fun p => p.1) h).symm, hpre, ?_⟩
          have hm : lbrace ∈ c :: r2tail := expectLBrace_mem _ hb
          exact s0.subset (t1.subset hm)
        · cases h

theorem headerMatches_shape (l : String) (h : headerMatches l = true) :
    ∃ kw ∈ allKinds, kw.toList <+: l.toList ∧ lbrace ∈ l.toList := by
  unfold headerMatches at h
  rcases Bool.or_eq_true_iff.mp h with h | h
  · rw [Option.isSome_iff_exists] at h
    obtain ⟨⟨bt, rt, rn⟩, hm⟩ := h
    unfold matchResourceHeader at hm
    cases h1 : tryResourceKw ("resource") l with
    | some r =>
      obtain ⟨b2, r2, n2⟩ := r
      obtain ⟨_, hpre, hbr⟩ := tryResourceKw_shape ("resource") l b2 r2 n2 h1
      exact ⟨("resource"), by decide, hpre, hbr⟩
    | none =>
      rw [h1] at hm
      obtain ⟨hbt, hpre, hbr⟩ := tryResourceKw_shape ("data") l bt rt rn hm
      exact ⟨("data"), by decide, hpre, hbr⟩
  · rw [Option.isSome_iff_exists] at h
    obtain ⟨⟨bt, nm⟩, hm⟩ := h
    unfold matchOtherHeader at hm
    obtain ⟨kw, hkw, hsome⟩ := List.exists_of_findSome?_eq_some hm
    obtain ⟨hbt, hpre, hbr⟩ := tryOtherKw_shape kw l bt nm hsome
    refine ⟨kw, ?_, hpre, hbr⟩
    fin_cases hkw <;> decide

theorem getD_drop' {α : Type} (d : α) :
    ∀ (L : List α) (n k : Nat), (L.drop n).getD k d = L.getD (n + k) d := by
  intro L
  induction L with
  | nil => intro n k; simp
  | cons x xs ih =>
    intro n k
    cases n with
    | zero => simp
    | succ n =>
      simp only [List.drop_succ_cons]
      rw [ih n k]
      have hnk : n + 1 + k = (n + k) + 1 := by omega
      rw [hnk]
      rfl

theorem extractBlockAux_spec : ∀ (ls : List String) (c : Int) (st : Bool),
    (extractBlockAux ls c st).1 = ls.take (extractBlockAux ls c st).2 ∧
    (extractBlockAux ls c st).2 ≤ ls.length ∧
    (ls = [] ∨ 1 ≤ (extractBlockAux ls c st).2) := by
  intro ls
  induction ls with
  | nil => intro c st; exact ⟨rfl, by simp [extractBlockAux], Or.inl rfl⟩
  | cons l ls ih =>
    intro c st
    simp only [extractBlockAux]
    by_cases hstop : (st || hasOpen l) && (c + braceNet l) = 0
    · rw [if_pos hstop]
      exact ⟨rfl, by simp, Or.inr (by simp)⟩
    · rw [if_neg hstop]
      obtain ⟨h1, h2, _⟩ := ih (c + braceNet l) (st || hasOpen l)
      refine ⟨?_, by simp; omega, Or.inr (by simp)⟩
      simp only [List.take_succ_cons]
      exact congrArg _ h1

theorem extractBlockAux_of_neverCloses :
    ∀ (ls : List String) (c : Int) (st : Bool), neverClosesAux ls c st = true →
      extractBlockAux ls c st = (ls, ls.length) := by
  intro ls
  induction ls with
  | nil => intro c st _; rfl
  | cons l ls ih =>
    intro c st h
    simp only [neverClosesAux] at h
    simp only [extractBlockAux]
    by_cases hstop : (st || hasOpen l) && (c + braceNet l) = 0
    · rw [if_pos hstop] at h
      cases h
    · rw [if_neg hstop] at h
      rw [if_neg hstop, ih (c + braceNet l) (st || hasOpen l) h]
      simp

theorem parseAux_nil : ∀ (fuel i : Nat), parseAux fuel [] i = [] := by
  intro fuel i
  cases fuel with
  | zero => rfl
  | succ f => rfl

theorem parseAux_start_header : ∀ (fuel : Nat) (rem : List String) (i : Nat)
    (b : Block), b ∈ parseAux fuel rem i →
    ∃ k, k < rem.length ∧ b.startIdx = i + k ∧
      headerMatches (rem.getD k ("")) = true := by
  intro fuel
  induction fuel with
  | zero => intro rem i b h; cases h
  | succ fuel ih =>
    intro rem i b h
    cases rem with
    | nil => cases h
    | cons l rest =>
      have hn1 : 1 ≤ (extractBlock (l :: rest)).2 := by
        rcases (extractBlockAux_spec (l :: rest) 0 false).2.2 with h0 | h0
        · cases h0
        · exact h0
      have hnle : (extractBlock (l :: rest)).2 ≤ (l :: rest).length :=
        (extractBlockAux_spec (l :: rest) 0 false).2.1
      cases hR : matchResourceHeader l with
      | some trip =>
        obtain ⟨bt, rt, rn⟩ := trip
        simp only [parseAux, hR] at h
        rcases List.mem_cons.mp h with hb | hb
        · refine ⟨0, by simp, by rw [hb]; simp, ?_⟩
          simp only [List.getD_cons_zero]
          unfold headerMatches
          rw [hR]
          simp
        · obtain ⟨k, hk, hs, hm⟩ := ih _ _ b hb
          refine ⟨(extractBlock (l :: rest)).2 + k, ?_, by rw [hs]; omega, ?_⟩
          · rw [List.length_drop] at hk
            omega
          · rw [getD_drop'] at hm
            exact hm
      | none =>
        cases hO : matchOtherHeader l with
        | some pr =>
          obtain ⟨bt, nm⟩ := pr
          simp only [parseAux, hR, hO] at h
          rcases List.mem_cons.mp h with hb | hb
          · refine ⟨0, by simp, by rw [hb]; simp, ?_⟩
            simp only [List.getD_cons_zero]
            unfold headerMatches
            rw [hO]
            simp
          · obtain ⟨k, hk, hs, hm⟩ := ih _ _ b hb
            refine ⟨(extractBlock (l :: rest)).2 + k, ?_, by rw [hs]; omega, ?_⟩
            · rw [List.length_drop] at hk
              omega
            · rw [getD_drop'] at hm
              exact hm
        | none =>
          simp only [parseAux, hR, hO] at h
          obtain ⟨k, hk, hs, hm⟩ := ih _ _ b h
          refine ⟨k + 1, by simp; omega, by rw [hs]; omega, ?_⟩
          simpa using hm

theorem parseAux_span : ∀ (fuel : Nat) (rem : List String) (i : Nat)
    (b : Block), b ∈ parseAux fuel rem i →
    i ≤ b.startIdx ∧ b.startIdx ≤ b.endIdx ∧ b.endIdx < i + rem.length := by
  intro fuel
  induction fuel with
  | zero => intro rem i b h; cases h
  | succ fuel ih =>
    intro rem i b h
    cases rem with
    | nil => cases h
    | cons l rest =>
      have hn1 : 1 ≤ (extractBlock (l :: rest)).2 := by
        rcases (extractBlockAux_spec (l :: rest) 0 false).2.2 with h0 | h0
        · cases h0
        · exact h0
      have hnle : (extractBlock (l :: rest)).2 ≤ (l :: rest).length :=
        (extractBlockAux_spec (l :: rest) 0 false).2.1
      simp only [List.length_cons] at hnle
      have hlen : (List.drop (extractBlock (l :: rest)).2 (l :: rest)).length =
          (l :: rest).length - (extractBlock (l :: rest)).2 := List.length_drop _ _
      simp only [List.length_cons] at hlen
      cases hR : matchResourceHeader l with
      | some trip =>
        obtain ⟨bt, rt, rn⟩ := trip
        simp only [parseAux, hR] at h
        rcases List.mem_cons.mp h with hb | hb
        · rw [hb]
          refine ⟨le_refl i, ?_, ?_⟩ <;> simp <;> omega
        · obtain ⟨h1, h2, h3⟩ := ih _ _ b hb
          rw [hlen] at h3
          simp only [List.length_cons]
          exact ⟨by omega, h2, by omega⟩
      | none =>
        cases hO : matchOtherHeader l with
        | some pr =>
          obtain ⟨bt, nm⟩ := pr
          simp only [parseAux, hR, hO] at h
          rcases List.mem_cons.mp h with hb | hb
          · rw [hb]
            refine ⟨le_refl i, ?_, ?_⟩ <;> simp <;> omega
          · obtain ⟨h1, h2, h3⟩ := ih _ _ b hb
            rw [hlen] at h3
            simp only [List.length_cons]
            exact ⟨by omega, h2, by omega⟩
        | none =>
          simp only [parseAux, hR, hO] at h
          obtain ⟨h1, h2, h3⟩ := ih _ _ b h
          simp only [List.length_cons]
          exact ⟨by omega, h2, by omega⟩

theorem parseAux_pairwise : ∀ (fuel : Nat) (rem : List String) (i : Nat),
    List.Pairwise (fun a b => a.endIdx < b.startIdx) (parseAux fuel rem i) := by
  intro fuel
  induction fuel with
  | zero => intro rem i; exact List.Pairwise.nil
  | succ fuel ih =>
    intro rem i
    cases rem with
    | nil => exact List.Pairwise.nil
    | cons l rest =>
      have hn1 : 1 ≤ (extractBlock (l :: rest)).2 := by
        rcases (extractBlockAux_spec (l :: rest) 0 false).2.2 with h0 | h0
        · cases h0
        · exact h0
      cases hR : matchResourceHeader l with
      | some trip =>
        obtain ⟨bt, rt, rn⟩ := trip
        simp only [parseAux, hR]
        refine List.Pairwise.cons ?_ (ih _ _)
        intro b hb
        have := (parseAux_span fuel _ _ b hb).1
        simp only
        omega
      | none =>
        cases hO : matchOtherHeader l with
        | some pr =>
          obtain ⟨bt, nm⟩ := pr
          simp only [parseAux, hR, hO]
          refine List.Pairwise.cons ?_ (ih _ _)
          intro b hb
          have := (parseAux_span fuel _ _ b hb).1
          simp only
          omega
        | none =>
          simp only [parseAux, hR, hO]
          exact ih _ _

theorem parseAux_coverage : ∀ (fuel : Nat) (rem : List String) (i : Nat),
    rem.length ≤ fuel →
    ∀ k, k < rem.length → headerMatches (rem.getD k ("")) = true →
      ∃ b ∈ parseAux fuel rem i, b.startIdx ≤ i + k ∧ i + k ≤ b.endIdx := by
  intro fuel
  induction fuel with
  | zero =>
    intro rem i hf k hk _
    omega
  | succ fuel ih =>
    intro rem i hf k hk hm
    cases rem with
    | nil => simp at hk
    | cons l rest =>
      have hn1 : 1 ≤ (extractBlock (l :: rest)).2 := by
        rcases (extractBlockAux_spec (l :: rest) 0 false).2.2 with h0 | h0
        · cases h0
        · exact h0
      have hnle : (extractBlock (l :: rest)).2 ≤ (l :: rest).length :=
        (extractBlockAux_spec (l :: rest) 0 false).2.1
      cases hR : matchResourceHeader l with
      | some trip =>
        obtain ⟨bt, rt, rn⟩ := trip
        simp only [parseAux, hR]
        by_cases hkn : k < (extractBlock (l :: rest)).2
        · refine ⟨_, List.mem_cons_self _ _, ?_, ?_⟩ <;> simp <;> omega
        · have hfuel : (List.drop (extractBlock (l :: rest)).2 (l :: rest)).length ≤ fuel := by
            rw [List.length_drop]
            simp only [List.length_cons] at hf ⊢
            omega
          have hk2 : k - (extractBlock (l :: rest)).2 <
              (List.drop (extractBlock (l :: rest)).2 (l :: rest)).length := by
            rw [List.length_drop]
            omega
          have hm2 : headerMatches ((List.drop (extractBlock (l :: rest)).2
              (l :: rest)).getD (k - (extractBlock (l :: rest)).2) ("")) = true := by
            rw [getD_drop']
            rw [show (extractBlock (l :: rest)).2 + (k - (extractBlock (l :: rest)).2) = k
              from by omega]
            exact hm
          obtain ⟨b, hb, hs1, hs2⟩ := ih _ (i + (extractBlock (l :: rest)).2) hfuel _ hk2 hm2
          refine ⟨b, List.mem_cons_of_mem _ hb, by omega, by omega⟩
      | none =>
        cases hO : matchOtherHeader l with
        | some pr =>
          obtain ⟨bt, nm⟩ := pr
          simp only [parseAux, hR, hO]
          by_cases hkn : k < (extractBlock (l :: rest)).2
          · refine ⟨_, List.mem_cons_self _ _, ?_, ?_⟩ <;> simp <;> omega
          · have hfuel : (List.drop (extractBlock (l :: rest)).2 (l :: rest)).length ≤ fuel := by
              rw [List.length_drop]
              simp only [List.length_cons] at hf ⊢
              omega
            have hk2 : k - (extractBlock (l :: rest)).2 <
                (List.drop (extractBlock (l :: rest)).2 (l :: rest)).length := by
              rw [List.length_drop]
              omega
            have hm2 : headerMatches ((List.drop (extractBlock (l :: rest)).2
                (l :: rest)).getD (k - (extractBlock (l :: rest)).2) ("")) = true := by
              rw [getD_drop']
              rw [show (extractBlock (l :: rest)).2 + (k - (extractBlock (l :: rest)).2) = k
                from by omega]
              exact hm
            obtain ⟨b, hb, hs1, hs2⟩ := ih _ (i + (extractBlock (l :: rest)).2) hfuel _ hk2 hm2
            refine ⟨b, List.mem_cons_of_mem _ hb, by omega, by omega⟩
        | none =>
          cases k with
          | zero =>
            exfalso
            simp only [List.getD_cons_zero] at hm
            unfold headerMatches at hm
            rw [hR, hO] at hm
            simp at hm
          | succ k =>
            simp only [parseAux, hR, hO]
            have hfuel : rest.length ≤ fuel := by
              simp only [List.length_cons] at hf
              omega
            have hk2 : k < rest.length := by
              simp only [List.length_cons] at hk
              omega
            obtain ⟨b, hb, hs1, hs2⟩ := ih rest (i + 1) hfuel k hk2 (by simpa using hm)
            exact ⟨b, hb, by omega, by omega⟩

theorem filter_isRD_length (ttf : List (String × String)) (df : String)
    (sk : List String) : ∀ bs : List Block,
    (bs.filter (fun b => isRD b)).length =
      (bs.filterMap (rdProj ttf df sk)).length +
        (bs.filterMap (skProj ttf df sk)).length := by
  intro bs
  induction bs with
  | nil => rfl
  | cons b bs ih =>
    simp only [List.filter_cons, List.filterMap_cons]
    by_cases hrd : isRD b
    · have hrdp : rdProj ttf df sk b =
          (get_target_file (b.resource_type.getD ("")) ttf df sk).map
            (fun t => (t, b.blines)) := by
        unfold rdProj
        rw [if_pos hrd]
      have hskp : skProj ttf df sk b =
          (match get_target_file (b.resource_type.getD ("")) ttf df sk with
            | some _ => none
            | none => some (b.resource_type.getD (""), b.resource_name.getD (""))) := by
        unfold skProj
        rw [if_pos hrd]
      rw [if_pos hrd, hrdp, hskp]
      cases hg : get_target_file (b.resource_type.getD ("")) ttf df sk with
      | some t =>
        simp only [hg, Option.map_some', List.length_cons, ih]
        omega
      | none =>
        simp only [hg, Option.map_none', List.length_cons, ih]
        omega
    · have hrdp : rdProj ttf df sk b = none := by
        unfold rdProj
        rw [if_neg hrd]
      have hskp : skProj ttf df sk b = none := by
        unfold skProj
        rw [if_neg hrd]
      rw [if_neg hrd, hrdp, hskp]
      exact ih

theorem parseAux_fuel_irrel : ∀ (f1 f2 : Nat) (rem : List String) (i : Nat),
    rem.length ≤ f1 → rem.length ≤ f2 → parseAux f1 rem i = parseAux f2 rem i := by
  intro f1
  induction f1 with
  | zero =>
    intro f2 rem i h1 _
    cases rem with
    | nil => rw [parseAux_nil, parseAux_nil]
    | cons l rest => simp at h1
  | succ f1 ih =>
    intro f2 rem i h1 h2
    cases rem with
    | nil => rw [parseAux_nil, parseAux_nil]
    | cons l rest =>
      cases f2 with
      | zero => simp at h2
      | succ f2 =>
        have hn1 : 1 ≤ (extractBlock (l :: rest)).2 := by
          rcases (extractBlockAux_spec (l :: rest) 0 false).2.2 with h0 | h0
          · cases h0
          · exact h0
        have hnle : (extractBlock (l :: rest)).2 ≤ (l :: rest).length :=
          (extractBlockAux_spec (l :: rest) 0 false).2.1
        simp only [List.length_cons] at h1 h2 hnle
        cases hR : matchResourceHeader l with
        | some trip =>
          obtain ⟨bt, rt, rn⟩ := trip
          simp only [parseAux, hR]
          congr 1
          apply ih
          · rw [List.length_drop]
            simp only [List.length_cons]
            omega
          · rw [List.length_drop]
            simp only [List.length_cons]
            omega
        | none =>
          cases hO : matchOtherHeader l with
          | some pr =>
            obtain ⟨bt, nm⟩ := pr
            simp only [parseAux, hR, hO]
            congr 1
            apply ih
            · rw [List.length_drop]
              simp only [List.length_cons]
              omega
            · rw [List.length_drop]
              simp only [List.length_cons]
              omega
          | none =>
            simp only [parseAux, hR, hO]
            apply ih <;> omega

theorem parseAux_meta_irrel : ∀ (fuel : Nat) (rem : List String) (i j : Nat),
    metaList (parseAux fuel rem i) = metaList (parseAux fuel rem j) := by
  intro fuel
  induction fuel with
  | zero => intro rem i j; rfl
  | succ fuel ih =>
    intro rem i j
    cases rem with
    | nil => rfl
    | cons l rest =>
      cases hR : matchResourceHeader l with
      | some trip =>
        obtain ⟨bt, rt, rn⟩ := trip
        simp only [parseAux, hR, metaList, List.map_cons]
        exact congrArg _ (ih _ _ _)
      | none =>
        cases hO : matchOtherHeader l with
        | some pr =>
          obtain ⟨bt, nm⟩ := pr
          simp only [parseAux, hR, hO, metaList, List.map_cons]
          exact congrArg _ (ih _ _ _)
        | none =>
          simp only [parseAux, hR, hO]
          exact ih _ _ _

theorem parseAux_headerOk : ∀ (fuel : Nat) (rem : List String) (i : Nat),
    ∀ b ∈ parseAux fuel rem i, blockHeaderOk b = true := by
  intro fuel
  induction fuel with
  | zero => intro rem i b h; cases h
  | succ fuel ih =>
    intro rem i b h
    cases rem with
    | nil => cases h
    | cons l rest =>
      have hn1 : 1 ≤ (extractBlock (l :: rest)).2 := by
        rcases (extractBlockAux_spec (l :: rest) 0 false).2.2 with h0 | h0
        · cases h0
        · exact h0
      have htake : (extractBlock (l :: rest)).1 =
          (l :: rest).take (extractBlock (l :: rest)).2 :=
        (extractBlockAux_spec (l :: rest) 0 false).1
      obtain ⟨m, hm⟩ : ∃ m, (extractBlock (l :: rest)).2 = m + 1 :=
        ⟨(extractBlock (l :: rest)).2 - 1, by omega⟩
      have hhead : (extractBlock (l :: rest)).1 = l :: rest.take m := by
        rw [htake, hm]
        rfl
      cases hR : matchResourceHeader l with
      | some trip =>
        obtain ⟨bt, rt, rn⟩ := trip
        simp only [parseAux, hR] at h
        rcases List.mem_cons.mp h with hb | hb
        · rw [hb]
          simp [blockHeaderOk, hhead, hR]
        · exact ih _ _ b hb
      | none =>
        cases hO : matchOtherHeader l with
        | some pr =>
          obtain ⟨bt, nm⟩ := pr
          simp only [parseAux, hR, hO] at h
          rcases List.mem_cons.mp h with hb | hb
          · rw [hb]
            simp [blockHeaderOk, hhead, hR, hO]
          · exact ih _ _ b hb
        | none =>
          simp only [parseAux, hR, hO] at h
          exact ih _ _ b h

theorem pcAux_extract : ∀ (ls : List String) (c : Int) (st : Bool)
    (rest : List String), pcAux ls c st = true →
    extractBlockAux (ls ++ rest) c st = (ls, ls.length) := by
  intro ls
  induction ls with
  | nil => intro c st rest h; cases h
  | cons l ls ih =>
    intro c st rest h
    simp only [pcAux] at h
    simp only [List.cons_append, extractBlockAux, List.append_eq]
    by_cases hstop : ((st || hasOpen l) && (c + braceNet l) = 0 : Bool)
    · rw [if_pos hstop] at h ⊢
      have hnil : ls = [] := by simpa using h
      subst hnil
      simp
    · rw [if_neg hstop] at h ⊢
      rw [ih _ _ rest h]
      simp

theorem metaList_parse_block_cons (b : Block) (rest : List String)
    (hok : blockHeaderOk b = true) (hpc : properClose b.blines = true) :
    metaList (parseBlocks (b.blines ++ rest)) =
      blockMeta b :: metaList (parseBlocks rest) := by
  unfold blockHeaderOk at hok
  cases hbl : b.blines with
  | nil =>
    rw [hbl] at hok
    simp at hok
  | cons l tl =>
    rw [hbl] at hok hpc
    dsimp only at hok
    have hext : extractBlockAux ((l :: tl) ++ rest) 0 false =
        (l :: tl, (l :: tl).length) := pcAux_extract (l :: tl) 0 false rest hpc
    have hE2 : extractBlock (l :: (tl ++ rest)) = (l :: tl, tl.length + 1) := by
      show extractBlockAux (l :: (tl ++ rest)) 0 false = _
      rw [show (l :: (tl ++ rest)) = ((l :: tl) ++ rest) from rfl, hext]
      simp
    have hdrop : List.drop (tl.length + 1) (l :: (tl ++ rest)) = rest := by
      rw [show l :: (tl ++ rest) = (l :: tl) ++ rest from rfl]
      rw [show tl.length + 1 = (l :: tl).length from rfl]
      exact List.drop_left (l :: tl) rest
    have htail : ∀ j : Nat, metaList (parseAux (tl ++ rest).length rest j) =
        metaList (parseBlocks rest) := by
      intro j
      unfold parseBlocks
      rw [parseAux_fuel_irrel (tl ++ rest).length rest.length rest j
        (by simp) (le_refl _)]
      exact parseAux_meta_irrel rest.length rest j 0
    unfold parseBlocks
    simp only [List.cons_append, List.length_cons, List.length_append]
    cases hR : matchResourceHeader l with
    | some trip =>
      obtain ⟨bt, rt, rn⟩ := trip
      rw [hR] at hok
      simp only [Bool.and_eq_true, decide_eq_true_eq] at hok
      obtain ⟨⟨h1, h2⟩, h3⟩ := hok
      simp only [parseAux, hR, hE2, hdrop, metaList, List.map_cons]
      have hfr : tl.length + rest.length + 1 - (tl.length + 1) = rest.length := by
        omega
      congr 1
      · simp [blockMeta, h1, h2, h3]
      · have := htail (0 + (tl.length + 1))
        simp only [metaList] at this
        rw [show tl.length + rest.length = (tl ++ rest).length from by simp]
        exact this
    | none =>
      cases hO : matchOtherHeader l with
      | some pr =>
        obtain ⟨bt, nm⟩ := pr
        rw [hR, hO] at hok
        simp only [Bool.and_eq_true, decide_eq_true_eq] at hok
        obtain ⟨⟨h1, h2⟩, h3⟩ := hok
        simp only [parseAux, hR, hO, hE2, hdrop, metaList, List.map_cons]
        congr 1
        · simp [blockMeta, h1, h2, h3]
        · have := htail (0 + (tl.length + 1))
          simp only [metaList] at this
          rw [show tl.length + rest.length = (tl ++ rest).length from by simp]
          exact this
      | none =>
        rw [hR, hO] at hok
        simp at hok

theorem metaList_parse_blank_cons (rest : List String) :
    metaList (parseBlocks ((("")) :: rest)) = metaList (parseBlocks rest) := by
  unfold parseBlocks
  simp only [List.length_cons]
  simp only [parseAux, show matchResourceHeader ("") = none from rfl,
    show matchOtherHeader ("") = none from rfl]
  exact parseAux_meta_irrel rest.length rest 1 0

theorem metaList_parse_interBlanks : ∀ (bs : List Block) (rest : List String),
    (∀ b ∈ bs, blockHeaderOk b = true ∧ properClose b.blines = true) →
    metaList (parseBlocks (interBlanks (bs.map Block.blines) ++ rest)) =
      bs.map blockMeta ++ metaList (parseBlocks rest) := by
  intro bs
  induction bs with
  | nil =>
    intro rest _
    simp [interBlanks]
  | cons b bs ih =>
    intro rest h
    cases bs with
    | nil =>
      simp only [List.map_cons, List.map_nil, interBlanks]
      rw [metaList_parse_block_cons b rest (h b (by simp)).1 (h b (by simp)).2]
      simp
    | cons b2 bs2 =>
      have hib : interBlanks ((b :: b2 :: bs2).map Block.blines) =
          b.blines ++ (("") :: interBlanks ((b2 :: bs2).map Block.blines)) := by
        simp only [List.map_cons]
        rfl
      rw [hib, List.append_assoc, List.cons_append]
      rw [metaList_parse_block_cons b _ (h b (by simp)).1 (h b (by simp)).2]
      rw [metaList_parse_blank_cons]
      rw [ih rest (fun b3 hb3 => h b3 (by simp [hb3]))]
      simp

theorem metaList_parse_files : ∀ (chunkss : List (List Block)),
    (∀ cs ∈ chunkss, ∀ b ∈ cs, blockHeaderOk b = true ∧ properClose b.blines = true) →
    metaList (parseBlocks
        ((chunkss.map (fun cs => interBlanks (cs.map Block.blines))).flatten ++ [("")])) =
      (chunkss.map (fun cs => cs.map blockMeta)).flatten := by
  intro chunkss
  induction chunkss with
  | nil =>
    intro _
    rw [show (([] : List (List Block)).map
        (fun cs => interBlanks (cs.map Block.blines))).flatten ++ [("")] = [("")] from rfl]
    rw [metaList_parse_blank_cons []]
    rfl
  | cons cs css ih =>
    intro h
    simp only [List.map_cons, List.flatten_cons, List.append_assoc]
    rw [metaList_parse_interBlanks cs _ (h cs (by simp))]
    rw [ih (fun cs2 hcs2 b hb => h cs2 (by simp [hcs2]) b hb)]

theorem tryRefMatch_g1 (c : Char) (cs : List Char) (a b : String)
    (rest : List Char) (lastC : Char)
    (h : tryRefMatch c cs = some ((a, b), rest, lastC)) :
    a.toList ≠ [] ∧ ∀ ch ∈ a.toList, isG1Char ch = true := by
  unfold tryRefMatch at h
  split at h
  · next hg1 =>
    split at h
    · next d rest2 hdrop =>
      split at h
      · split at h
        · cases h
        · split at h
          · next e rest5 hdrop2 =>
            split at h
            · injection h with h1
              have hta : a = String.mk ((c :: cs).takeWhile isG1Char) :=
                (congrArg (fun x => x.1.1) h1).symm
              rw [hta]
              constructor
              · show (c :: cs).takeWhile isG1Char ≠ []
                simp [List.takeWhile_cons, hg1]
              · intro ch hch
                exact List.mem_takeWhile_imp hch
            · injection h with h1
              have hta : a = String.mk ((c :: cs).takeWhile isG1Char) :=
                (congrArg (fun x => x.1.1) h1).symm
              rw [hta]
              constructor
              · show (c :: cs).takeWhile isG1Char ≠ []
                simp [List.takeWhile_cons, hg1]
              · intro ch hch
                exact List.mem_takeWhile_imp hch
          · injection h with h1
            have hta : a = String.mk ((c :: cs).takeWhile isG1Char) :=
              (congrArg (fun x => x.1.1) h1).symm
            rw [hta]
            constructor
            · show (c :: cs).takeWhile isG1Char ≠ []
              simp [List.takeWhile_cons, hg1]
            · intro ch hch
              exact List.mem_takeWhile_imp hch
      · cases h
    · cases h
  · cases h

theorem findRefsAux_g1 : ∀ (fuel : Nat) (cs : List Char) (w : Bool)
    (a b : String), (a, b) ∈ findRefsAux fuel cs w →
    a.toList ≠ [] ∧ ∀ ch ∈ a.toList, isG1Char ch = true := by
  intro fuel
  induction fuel with
  | zero => intro cs w a b h; cases h
  | succ fuel ih =>
    intro cs w a b h
    cases cs with
    | nil => cases h
    | cons c cs =>
      simp only [findRefsAux] at h
      by_cases hw : w
      · rw [if_pos hw] at h
        exact ih _ _ a b h
      · rw [if_neg hw] at h
        cases hm : tryRefMatch c cs with
        | some r =>
          obtain ⟨m, rest, lastC⟩ := r
          rw [hm] at h
          rcases List.mem_cons.mp h with h1 | h1
          · obtain ⟨a2, b2⟩ := m
            have hab : a = a2 ∧ b = b2 := by
              constructor
              · exact congrArg Prod.fst h1
              · exact congrArg Prod.snd h1
            rw [hab.1]
            exact (tryRefMatch_g1 c cs a2 b2 rest lastC hm).imp id (fun x => x)
          · exact ih _ _ a b h1
        | none =>
          rw [hm] at h
          exact ih _ _ a b h

theorem isG1Char_ne_dot (c : Char) (h : isG1Char c = true) : (c = dotChar) = False := by
  simp only [eq_iff_iff, iff_false]
  intro hc
  rw [hc] at h
  simp [isG1Char, dotChar] at h

theorem takeWhile_append_dot (xs ys : List Char)
    (hx : ∀ x ∈ xs, isG1Char x = true) :
    (xs ++ dotChar :: ys).takeWhile (fun c => !(c = dotChar)) = xs := by
  induction xs with
  | nil => simp [List.takeWhile_cons]
  | cons x xs ih =>
    have hx1 : isG1Char x = true := hx x (by simp)
    simp only [List.cons_append, List.takeWhile_cons]
    rw [show (decide (x = dotChar)) = false from by
      simp [isG1Char_ne_dot x hx1]]
    simp only [Bool.not_false, if_true]
    rw [ih (fun y hy => hx y (by simp [hy]))]

theorem depsFold_mem (resources : List (String × String)) (rid : String) :
    ∀ (l : List (String × String)) (acc : List String) (t : String),
      t ∈ l.foldl
        (fun acc p =>
          if reservedWords.contains p.1 then acc
          else
            if (resources.any (fun q => q.1 = p.1 ++ (".") ++ p.2)) &&
                !(p.1 ++ (".") ++ p.2 = rid) then
              dedupAdd acc (p.1 ++ (".") ++ p.2)
            else acc) acc →
      t ∈ acc ∨ ∃ p ∈ l, reservedWords.contains p.1 = false ∧
        (resources.any (fun q => q.1 = p.1 ++ (".") ++ p.2) = true) ∧
        t = p.1 ++ (".") ++ p.2 ∧ t ≠ rid := by
  intro l
  induction l with
  | nil => intro acc t h; exact Or.inl h
  | cons p l ih =>
    intro acc t h
    simp only [List.foldl_cons] at h
    rcases ih _ t h with h1 | h1
    · by_cases hres : reservedWords.contains p.1
      · rw [if_pos hres] at h1
        exact Or.inl h1
      · rw [if_neg hres] at h1
        by_cases hc : ((resources.any (fun q => q.1 = p.1 ++ (".") ++ p.2)) &&
            !(p.1 ++ (".") ++ p.2 = rid) : Bool)
        · rw [if_pos hc] at h1
          unfold dedupAdd at h1
          by_cases hin : acc.contains (p.1 ++ (".") ++ p.2)
          · rw [if_pos hin] at h1
            exact Or.inl h1
          · rw [if_neg hin] at h1
            rcases List.mem_append.mp h1 with h2 | h2
            · exact Or.inl h2
            · have ht : t = p.1 ++ (".") ++ p.2 := by simpa using h2
              rcases Bool.and_eq_true_iff.mp hc with ⟨hany, hne⟩
              refine Or.inr ⟨p, by simp, ?_, hany, ht, ?_⟩
              · cases hres2 : reservedWords.contains p.1 with
                | false => rfl
                | true => exact absurd hres2 hres
              · rw [ht]
                intro heq
                rw [heq] at hne
                simp at hne
        · rw [if_neg hc] at h1
          exact Or.inl h1
    · obtain ⟨p2, hp2, hrest⟩ := h1
      exact Or.inr ⟨p2, by simp [hp2], hrest⟩

theorem insertLe_perm {α : Type} (le : α → α → Bool) (x : α) :
    ∀ l : List α, (insertLe le x l).Perm (x :: l) := by
  intro l
  induction l with
  | nil => exact List.Perm.refl _
  | cons y ys ih =>
    simp only [insertLe]
    by_cases h : le x y
    · rw [if_pos h]
    · rw [if_neg h]
      exact (List.Perm.cons y ih).trans (List.Perm.swap x y ys)

theorem sortLe_perm {α : Type} (le : α → α → Bool) :
    ∀ l : List α, (sortLe le l).Perm l := by
  intro l
  induction l with
  | nil => exact List.Perm.refl _
  | cons x xs ih =>
    simp only [sortLe]
    exact (insertLe_perm le x (sortLe le xs)).trans (List.Perm.cons x ih)

theorem insertLe_pairwise {α : Type} (le : α → α → Bool)
    (htrans : ∀ a b c, le a b = true → le b c = true → le a c = true)
    (htot : ∀ a b, le a b = true ∨ le b a = true) (x : α) :
    ∀ l : List α, l.Pairwise (fun a b => le a b = true) →
      (insertLe le x l).Pairwise (fun a b => le a b = true) := by
  intro l
  induction l with
  | nil =>
    intro _
    simp [insertLe]
  | cons y ys ih =>
    intro hp
    rcases List.pairwise_cons.mp hp with ⟨hy, hys⟩
    simp only [insertLe]
    by_cases h : le x y
    · rw [if_pos h]
      refine List.Pairwise.cons ?_ hp
      intro z hz
      rcases List.mem_cons.mp hz with hz | hz
      · rw [hz]
        exact h
      · exact htrans x y z h (hy z hz)
    · rw [if_neg h]
      refine List.Pairwise.cons ?_ (ih hys)
      intro z hz
      have hz2 : z ∈ x :: ys := (insertLe_perm le x ys).mem_iff.mp hz
      rcases List.mem_cons.mp hz2 with hz2 | hz2
      · rcases htot y x with h2 | h2
        · rw [hz2]
          exact h2
        · exact absurd h2 h
      · exact hy z hz2

theorem sortLe_pairwise {α : Type} (le : α → α → Bool)
    (htrans : ∀ a b c, le a b = true → le b c = true → le a c = true)
    (htot : ∀ a b, le a b = true ∨ le b a = true) :
    ∀ l : List α, (sortLe le l).Pairwise (fun a b => le a b = true) := by
  intro l
  induction l with
  | nil => exact List.Pairwise.nil
  | cons x xs ih =>
    simp only [sortLe]
    exact insertLe_pairwise le htrans htot x (sortLe le xs) ih

theorem printTree_inv (deps : List (String × List String)) : ∀ fuel : Nat,
    (∀ (rid pre : String) (isLast : Bool) (visited : List String),
      ((printTree deps fuel rid pre isLast visited).1.map Prod.snd).Nodup ∧
      (∀ x ∈ (printTree deps fuel rid pre isLast visited).1.map Prod.snd,
        x ∉ visited) ∧
      (printTree deps fuel rid pre isLast visited).2 =
        ((printTree deps fuel rid pre isLast visited).1.map Prod.snd).reverse ++
          visited) ∧
    (∀ (ds : List String) (pre : String) (visited : List String),
      ((printTreeSibs deps fuel ds pre visited).1.map Prod.snd).Nodup ∧
      (∀ x ∈ (printTreeSibs deps fuel ds pre visited).1.map Prod.snd,
        x ∉ visited) ∧
      (printTreeSibs deps fuel ds pre visited).2 =
        ((printTreeSibs deps fuel ds pre visited).1.map Prod.snd).reverse ++
          visited) := by
  intro fuel
  induction fuel with
  | zero =>
    constructor
    · intro rid pre isLast visited
      have h0 : printTree deps 0 rid pre isLast visited = ([], visited) := by
        unfold printTree
        by_cases hv : visited.contains rid
        · rw [if_pos hv]
        · rw [if_neg hv]
      rw [h0]
      simp
    · intro ds pre visited
      have h0 : printTreeSibs deps 0 ds pre visited = ([], visited) := by
        cases ds with
        | nil => rfl
        | cons d rest => rfl
      rw [h0]
      simp
  | succ f ih =>
    obtain ⟨ihT, ihS⟩ := ih
    have stepT : ∀ (rid pre : String) (isLast : Bool) (visited : List String),
        ((printTree deps (f + 1) rid pre isLast visited).1.map Prod.snd).Nodup ∧
        (∀ x ∈ (printTree deps (f + 1) rid pre isLast visited).1.map Prod.snd,
          x ∉ visited) ∧
        (printTree deps (f + 1) rid pre isLast visited).2 =
          ((printTree deps (f + 1) rid pre isLast visited).1.map
            Prod.snd).reverse ++ visited := by
      intro rid pre isLast visited
      by_cases hv : visited.contains rid
      · have h0 : printTree deps (f + 1) rid pre isLast visited = ([], visited) := by
          unfold printTree
          rw [if_pos hv]
        rw [h0]
        simp
      · have h0 : printTree deps (f + 1) rid pre isLast visited =
            ((pre ++ (if isLast then ("└── ") else ("├── ")), rid) ::
                (printTreeSibs deps f ((dictLookupL deps rid).getD [])
                  (pre ++ (if isLast then ("    ") else ("│   ")))
                  (rid :: visited)).1,
              (printTreeSibs deps f ((dictLookupL deps rid).getD [])
                (pre ++ (if isLast then ("    ") else ("│   ")))
                (rid :: visited)).2) := by
          unfold printTree
          rw [if_neg hv]
        obtain ⟨hnd, hfr, hvis⟩ := ihS ((dictLookupL deps rid).getD [])
          (pre ++ (if isLast then ("    ") else ("│   "))) (rid :: visited)
        have hridnv : rid ∉ visited := by
          intro hmem
          exact hv (by simpa using hmem)
        rw [h0]
        simp only [List.map_cons]
        refine ⟨?_, ?_, ?_⟩
        · refine List.Pairwise.cons ?_ hnd
          intro x hx
          intro hxx
          have := hfr x hx
          rw [hxx] at this
          exact this (by simp)
        · intro x hx
          rcases List.mem_cons.mp hx with hx | hx
          · rw [hx]
            exact hridnv
          · intro hmem
            exact hfr x hx (by simp [hmem])
        · rw [hvis, List.reverse_cons, List.append_assoc]
          rfl
    refine ⟨stepT, ?_⟩
    intro ds pre visited
    cases ds with
    | nil =>
      have h0 : printTreeSibs deps (f + 1) [] pre visited = ([], visited) := rfl
      rw [h0]
      simp
    | cons d rest =>
      have h0 : printTreeSibs deps (f + 1) (d :: rest) pre visited =
          ((printTree deps f d pre rest.isEmpty visited).1 ++
              (printTreeSibs deps f rest pre
                (printTree deps f d pre rest.isEmpty visited).2).1,
            (printTreeSibs deps f rest pre
              (printTree deps f d pre rest.isEmpty visited).2).2) := rfl
      obtain ⟨hnd1, hfr1, hvis1⟩ := ihT d pre rest.isEmpty visited
      obtain ⟨hnd2, hfr2, hvis2⟩ := ihS rest pre
        (printTree deps f d pre rest.isEmpty visited).2
      rw [h0]
      simp only [List.map_append]
      refine ⟨?_, ?_, ?_⟩
      · refine List.Nodup.append hnd1 hnd2 ?_
        intro x hx1 hx2
        have := hfr2 x hx2
        rw [hvis1] at this
        exact this (by simp [hx1])
      · intro x hx
        rcases List.mem_append.mp hx with hx | hx
        · exact hfr1 x hx
        · intro hmem
          have := hfr2 x hx
          rw [hvis1] at this
          exact this (by simp [hmem])
      · rw [hvis2, hvis1, List.reverse_append, List.append_assoc]

theorem dictInsert_keys (d : List (String × String)) (k v : String) :
    (dictInsert d k v).map (fun p => p.1) =
      if d.any (fun p => p.1 = k) then d.map (fun p => p.1)
      else d.map (fun p => p.1) ++ [k] := by
  unfold dictInsert
  by_cases h : d.any (fun p => p.1 = k)
  · rw [if_pos h, if_pos h, List.map_map]
    apply List.map_congr_left
    intro p _
    by_cases hh : p.1 = k
    · simp [hh]
    · simp [hh]
  · rw [if_neg h, if_neg h]
    simp

theorem dictLookup_cons_eq (p : String × String) (d : List (String × String))
    (k2 : String) :
    dictLookup (p :: d) k2 = if p.1 = k2 then some p.2 else dictLookup d k2 := rfl

theorem dictLookup_map_replace (k v : String) :
    ∀ (d : List (String × String)) (k2 : String),
      dictLookup (d.map (fun p => if p.1 = k then (k, v) else p)) k2 =
        if k2 = k then (if d.any (fun p => p.1 = k) then some v else none)
        else dictLookup d k2 := by
  intro d
  induction d with
  | nil =>
    intro k2
    by_cases h : k2 = k
    · simp [dictLookup, h]
    · simp [dictLookup, h]
  | cons p d ih =>
    intro k2
    simp only [List.map_cons, List.any_cons]
    by_cases hp : p.1 = k
    · rw [if_pos hp, dictLookup_cons_eq, dictLookup_cons_eq]
      by_cases hk : k2 = k
      · rw [if_pos (show (k, v).1 = k2 from by rw [hk]), if_pos hk]
        have hcond : (decide (p.1 = k) || d.any fun p => decide (p.1 = k)) = true := by
          simp [hp]
        simp [hcond]
      · rw [if_neg (show ¬ ((k, v).1 = k2) from fun hc => hk (by rw [← hc]))]
        rw [if_neg (show ¬ (p.1 = k2) from fun hc => hk (by rw [← hc, hp]))]
        rw [ih k2, if_neg hk, if_neg hk]
    · rw [if_neg hp, dictLookup_cons_eq, dictLookup_cons_eq]
      by_cases hpk2 : p.1 = k2
      · have hk : ¬ (k2 = k) := fun hc => hp (by rw [hpk2, hc])
        rw [if_pos hpk2, if_pos hpk2, if_neg hk]
      · rw [if_neg hpk2, if_neg hpk2, ih k2]
        by_cases hk : k2 = k
        · rw [if_pos hk, if_pos hk]
          by_cases hda : (d.any fun p => decide (p.1 = k)) = true
          · rw [if_pos hda, if_pos (show (decide (p.1 = k) ||
              d.any fun p => decide (p.1 = k)) = true from by simp [hda])]
          · rw [if_neg hda, if_neg (show ¬ ((decide (p.1 = k) ||
              d.any fun p => decide (p.1 = k)) = true) from by
                simp only [Bool.or_eq_true]
                intro hc
                rcases hc with hc | hc
                · exact hp (by simpa using hc)
                · exact hda hc)]
        · rw [if_neg hk, if_neg hk]

theorem dictLookup_append (d1 d2 : List (String × String)) (k : String) :
    dictLookup (d1 ++ d2) k =
      match dictLookup d1 k with
      | some v => some v
      | none => dictLookup d2 k := by
  induction d1 with
  | nil => rfl
  | cons p d1 ih =>
    rw [List.cons_append, dictLookup_cons_eq, dictLookup_cons_eq]
    by_cases h : p.1 = k
    · rw [if_pos h, if_pos h]
    · rw [if_neg h, if_neg h, ih]

theorem dictLookup_eq_none_of_not_any (d : List (String × String)) (k : String)
    (h : d.any (fun p => p.1 = k) = false) :
    dictLookup d k = none := by
  induction d with
  | nil => rfl
  | cons p d ih =>
    simp only [List.any_cons, Bool.or_eq_false_iff] at h
    simp only [dictLookup]
    rw [if_neg (by simpa using h.1)]
    exact ih h.2

theorem dictLookup_dictInsert (d : List (String × String)) (k v k2 : String) :
    dictLookup (dictInsert d k v) k2 =
      if k2 = k then some v else dictLookup d k2 := by
  unfold dictInsert
  by_cases h : d.any (fun p => p.1 = k)
  · rw [if_pos h, dictLookup_map_replace, if_pos h]
  · rw [if_neg h, dictLookup_append]
    by_cases hk : k2 = k
    · subst hk
      have hfalse : d.any (fun p => p.1 = k2) = false := by
        cases hb : d.any (fun p => p.1 = k2) with
        | false => rfl
        | true => exact absurd hb h
      rw [dictLookup_eq_none_of_not_any d k2 hfalse, if_pos rfl]
      show dictLookup [(k2, v)] k2 = some v
      rw [dictLookup_cons_eq, if_pos rfl]
    · rw [if_neg hk]
      cases hd : dictLookup d k2 with
      | some w => rfl
      | none =>
        show dictLookup [(k, v)] k2 = none
        rw [dictLookup_cons_eq,
          if_neg (show ¬ ((k, v).1 = k2) from fun hc => hk (by rw [← hc]))]
        rfl

theorem buildRes_lookup (ms : List (String × String × String)) :
    ∀ (acc : List (String × String)) (k : String),
      dictLookup (ms.foldl (fun acc m =>
        dictInsert acc (m.1 ++ (".") ++ m.2.1) m.2.2) acc) k =
      match ms.reverse.find? (fun m => m.1 ++ (".") ++ m.2.1 = k) with
      | some m => some m.2.2
      | none => dictLookup acc k := by
  induction ms with
  | nil => intro acc k; rfl
  | cons m ms ih =>
    intro acc k
    simp only [List.foldl_cons, List.reverse_cons]
    rw [ih]
    rw [List.find?_append]
    cases hf : ms.reverse.find? (fun m => m.1 ++ (".") ++ m.2.1 = k) with
    | some m2 => simp [Option.orElse]
    | none =>
      simp only [Option.orElse, Option.none_orElse]
      rw [dictLookup_dictInsert]
      simp only [List.find?_cons, List.find?_nil]
      by_cases hk : k = m.1 ++ (".") ++ m.2.1
      · rw [if_pos hk]
        rw [show (decide (m.1 ++ (".") ++ m.2.1 = k)) = true from by
          simp [hk.symm]]
        simp [Option.or]
      · rw [if_neg hk]
        rw [show (decide (m.1 ++ (".") ++ m.2.1 = k)) = false from by
          simp only [decide_eq_false_iff_not]
          exact fun hc => hk hc.symm]
        simp [Option.or]

theorem buildRes_keys_nodup (ms : List (String × String × String)) :
    ∀ acc : List (String × String), (acc.map (fun p => p.1)).Nodup →
      ((ms.foldl (fun acc m =>
        dictInsert acc (m.1 ++ (".") ++ m.2.1) m.2.2) acc).map
          (fun p => p.1)).Nodup := by
  induction ms with
  | nil => intro acc h; exact h
  | cons m ms ih =>
    intro acc h
    simp only [List.foldl_cons]
    apply ih
    rw [dictInsert_keys]
    by_cases ha : acc.any (fun p => p.1 = m.1 ++ (".") ++ m.2.1)
    · rw [if_pos ha]
      exact h
    · rw [if_neg ha]
      rw [← List.concat_eq_append]
      apply List.Nodup.concat ?_ h
      intro hmem
      rcases List.mem_map.mp hmem with ⟨p, hp, hpk⟩
      have : acc.any (fun p => p.1 = m.1 ++ (".") ++ m.2.1) = true :=
        List.any_eq_true.mpr ⟨p, hp, by simpa using hpk⟩
      rw [this] at ha
      exact ha rfl

theorem buildRes_keys_mem (ms : List (String × String × String)) :
    ∀ (acc : List (String × String)) (k : String),
      (k ∈ (ms.foldl (fun acc m =>
        dictInsert acc (m.1 ++ (".") ++ m.2.1) m.2.2) acc).map (fun p => p.1)) ↔
      ((∃ m ∈ ms, m.1 ++ (".") ++ m.2.1 = k) ∨ k ∈ acc.map (fun p => p.1)) := by
  induction ms with
  | nil =>
    intro acc k
    simp
  | cons m ms ih =>
    intro acc k
    simp only [List.foldl_cons]
    rw [ih]
    have hins : k ∈ (dictInsert acc (m.1 ++ (".") ++ m.2.1) m.2.2).map
        (fun p => p.1) ↔ (k = m.1 ++ (".") ++ m.2.1 ∨ k ∈ acc.map (fun p => p.1)) := by
      rw [dictInsert_keys]
      by_cases ha : acc.any (fun p => p.1 = m.1 ++ (".") ++ m.2.1)
      · rw [if_pos ha]
        constructor
        · intro h
          exact Or.inr h
        · intro h
          rcases h with h | h
          · rcases List.any_eq_true.mp ha with ⟨p, hp, hpk⟩
            rw [h]
            exact List.mem_map.mpr ⟨p, hp, by simpa using hpk⟩
          · exact h
      · rw [if_neg ha]
        simp [or_comm]
    rw [hins]
    constructor
    · intro h
      rcases h with ⟨m2, hm2, hk⟩ | h
      · exact Or.inl ⟨m2, by simp [hm2], hk⟩
      · rcases h with h | h
        · exact Or.inl ⟨m, by simp, h.symm⟩
        · exact Or.inr h
    · intro h
      rcases h with ⟨m2, hm2, hk⟩ | h
      · rcases List.mem_cons.mp hm2 with hm2 | hm2
        · exact Or.inr (Or.inl (by rw [hm2] at hk; exact hk.symm))
        · exact Or.inl ⟨m2, hm2, hk⟩
      · exact Or.inr (Or.inr h)

end TfScripts

open TfScripts

/-- Claim C1 counterexample: on the body `name = "a"` / `name = "b"` (both at
depth zero), the extractor returns the FIRST depth-zero value `"a"`, not the
last one `"b"` demanded by the claim. -/
theorem claim_C1_counterexample :
    lastDepthZeroAttr ("name")
        (pySplitLines ("name = \x22a\x22\nname = \x22b\x22")) = some ("b") ∧
    extract_top_level_attribute ("name = \x22a\x22\nname = \x22b\x22") ("name") ≠
      some ("b") := by
  constructor
  · rfl
  · intro h
    exact absurd h (by decide)

/-- Claim C1 (amended): when an attribute is declared several times at brace
depth zero, `_extract_top_level_attribute` returns the value of the FIRST
depth-zero occurrence in top-to-bottom scan order. -/
theorem claim_C1_theorem (content attrName : String) :
    extract_top_level_attribute content attrName =
      firstDepthZeroAttr attrName (pySplitLines content) := by
  unfold extract_top_level_attribute firstDepthZeroAttr
  exact attrScan_eq_firstDepthZero attrName (pySplitLines content) 0

/-- Claim C4: an attribute that matches only on lines entered at positive
brace depth (i.e. declared only inside nested sub-blocks) is never returned:
the extractor yields absence. -/
theorem claim_C4_theorem (content attrName : String)
    (h : ∀ p ∈ depthAnnotate (pySplitLines content) 0,
        (matchAttrLine attrName p.2).isSome → p.1 ≠ 0) :
    extract_top_level_attribute content attrName = none := by
  unfold extract_top_level_attribute
  rw [attrScan_eq_firstDepthZero]
  apply findSome?_eq_none_of_forall
  intro p hp
  by_cases h0 : p.1 = 0
  · have := h p hp
    rw [if_pos h0]
    cases hm : matchAttrLine attrName p.2 with
    | none => rfl
    | some v => exact absurd h0 (this (by simp [hm]))
  · rw [if_neg h0]

/-- Witness for C4 at the body `sub { name = "inner" }`: the only `name`
line sits at depth 1, and the extractor returns `none`. -/
theorem claim_C4_witness :
    extract_top_level_attribute
      ("  sub \x7b\n    name = \x22inner\x22\n  \x7d") ("name") = none :=
  claim_C4_theorem ("  sub \x7b\n    name = \x22inner\x22\n  \x7d") ("name")
    (by decide)


/-- Claim C2: classification order of `get_target_file` — a type listed in
`skip_types` yields `none` (and such blocks reach no bucket, only the skipped
list); otherwise an exact hit in the reverse type-index wins; otherwise the
first configured type that is a string prefix of the declared type; otherwise
the default bucket.  The function is total, and `none` happens exactly for
skipped types, so classification never fails. -/
theorem claim_C2_theorem (rt df : String) (ttf : List (String × String))
    (sk : List String) :
    (rt ∈ sk → get_target_file rt ttf df sk = none) ∧
    (rt ∉ sk → ∀ f, dictLookup ttf rt = some f →
      get_target_file rt ttf df sk = some f) ∧
    (rt ∉ sk → dictLookup ttf rt = none →
      ∀ p, ttf.find? (fun q => pyStartsWith rt q.1) = some p →
        get_target_file rt ttf df sk = some p.2) ∧
    (rt ∉ sk → dictLookup ttf rt = none →
      ttf.find? (fun q => pyStartsWith rt q.1) = none →
      get_target_file rt ttf df sk = some df) ∧
    (get_target_file rt ttf df sk = none ↔ rt ∈ sk) ∧
    (∀ (bs : List Block) (b : Block), b ∈ bs → isRD b →
      (b.resource_type.getD ("")) ∈ sk →
      ((b.resource_type.getD (""), b.resource_name.getD ("")) ∈
          (splitLoop ttf df sk bs).2.2 ∧
        ∀ fl ∈ splitAssignments ttf df sk bs,
          ∃ b2 ∈ bs, fl.2 = b2.blines ∧
            (isRD b2 → (b2.resource_type.getD ("")) ∉ sk))) := by
  have hco : ∀ (l : List String) (x : String), x ∈ l → l.contains x = true := by
    intro l x h; simpa using h
  have hcon : ∀ (l : List String) (x : String), x ∉ l → l.contains x = false := by
    intro l x h
    cases hc : l.contains x with
    | false => rfl
    | true => exact absurd (by simpa using hc) h
  refine ⟨?_, ?_, ?_, ?_, ?_, ?_⟩
  · intro hsk
    unfold get_target_file
    rw [hco sk rt hsk]
    simp
  · intro hsk f hf
    unfold get_target_file
    rw [hcon sk rt hsk]
    simp [hf]
  · intro hsk hf p hp
    unfold get_target_file
    rw [hcon sk rt hsk]
    simp [hf, hp]
  · intro hsk hf hp
    unfold get_target_file
    rw [hcon sk rt hsk]
    simp [hf, hp]
  · constructor
    · intro h
      by_contra hsk
      unfold get_target_file at h
      rw [hcon sk rt hsk] at h
      simp only [Bool.false_eq_true, if_false] at h
      cases hf : dictLookup ttf rt with
      | some f => simp [hf] at h
      | none =>
        cases hp : ttf.find? (fun q => pyStartsWith rt q.1) with
        | some p => simp [hf, hp] at h
        | none => simp [hf, hp] at h
    · intro hsk
      unfold get_target_file
      rw [hco sk rt hsk]
      simp
  · intro bs b hb hrd hsk
    have hnone : get_target_file (b.resource_type.getD ("")) ttf df sk = none := by
      unfold get_target_file
      rw [hco sk (b.resource_type.getD ("")) hsk]
      simp
    constructor
    · rw [splitLoop_eq_filterMap]
      refine List.mem_filterMap.mpr ⟨b, hb, ?_⟩
      simp [skProj, hrd, hnone]
    · intro fl hfl
      unfold splitAssignments at hfl
      rw [splitLoop_eq_filterMap] at hfl
      rcases List.mem_append.mp hfl with h1 | h1
      · rcases List.mem_filterMap.mp h1 with ⟨b2, hb2, hpr⟩
        unfold rdProj at hpr
        by_cases hrd2 : isRD b2
        · rw [if_pos hrd2] at hpr
          cases hg : get_target_file (b2.resource_type.getD ("")) ttf df sk with
          | none => rw [hg] at hpr; exact absurd hpr (by simp)
          | some t =>
            rw [hg] at hpr
            simp only [Option.map_some'] at hpr
            have hfl2 : (t, b2.blines) = fl := Option.some.inj hpr
            refine ⟨b2, hb2, ?_, ?_⟩
            · rw [← hfl2]
            · intro _ hsk2
              unfold get_target_file at hg
              rw [hco sk (b2.resource_type.getD ("")) hsk2] at hg
              simp at hg
        · rw [if_neg hrd2] at hpr
          exact absurd hpr (by simp)
      · rcases List.mem_filterMap.mp h1 with ⟨b2, hb2, hpr⟩
        unfold spProj at hpr
        by_cases hrd2 : isRD b2
        · rw [if_pos hrd2] at hpr
          exact absurd hpr (by simp)
        · rw [if_neg hrd2] at hpr
          cases hg : specialTarget b2.block_type with
          | none => rw [hg] at hpr; exact absurd hpr (by simp)
          | some t =>
            rw [hg] at hpr
            simp only [Option.map_some'] at hpr
            have hfl2 : (t, b2.blines) = fl := Option.some.inj hpr
            refine ⟨b2, hb2, ?_, fun h => absurd h hrd2⟩
            rw [← hfl2]

/-- Witness for C2 at a concrete configuration: `azurerm_subnet` is skipped,
`azurerm_mssql_server` hits the index exactly, the suffixed type
`azurerm_mssql_server_extended_auditing_policy` routes by prefix, and an
unknown type falls back to the default bucket. -/
theorem claim_C2_witness :
    get_target_file ("azurerm_subnet")
        [(("azurerm_mssql_server"), ("databases-sql.tf"))] ("other.tf")
        [("azurerm_subnet")] = none ∧
    get_target_file ("azurerm_mssql_server")
        [(("azurerm_mssql_server"), ("databases-sql.tf"))] ("other.tf")
        [("azurerm_subnet")] = some ("databases-sql.tf") ∧
    get_target_file ("azurerm_mssql_server_extended_auditing_policy")
        [(("azurerm_mssql_server"), ("databases-sql.tf"))] ("other.tf")
        [("azurerm_subnet")] = some ("databases-sql.tf") ∧
    get_target_file ("azurerm_unknown_thing")
        [(("azurerm_mssql_server"), ("databases-sql.tf"))] ("other.tf")
        [("azurerm_subnet")] = some ("other.tf") := by
  refine ⟨?_, ?_, ?_, ?_⟩
  · exact (claim_C2_theorem ("azurerm_subnet") ("other.tf")
      [(("azurerm_mssql_server"), ("databases-sql.tf"))] [("azurerm_subnet")]).1
      (by decide)
  · exact (claim_C2_theorem ("azurerm_mssql_server") ("other.tf")
      [(("azurerm_mssql_server"), ("databases-sql.tf"))] [("azurerm_subnet")]).2.1
      (by decide) ("databases-sql.tf") (by decide)
  · exact (claim_C2_theorem ("azurerm_mssql_server_extended_auditing_policy")
      ("other.tf") [(("azurerm_mssql_server"), ("databases-sql.tf"))]
      [("azurerm_subnet")]).2.2.1 (by decide) (by decide)
      (("azurerm_mssql_server"), ("databases-sql.tf")) (by decide)
  · exact (claim_C2_theorem ("azurerm_unknown_thing") ("other.tf")
      [(("azurerm_mssql_server"), ("databases-sql.tf"))] [("azurerm_subnet")]).2.2.2.1
      (by decide) (by decide) (by decide)

/-- Claim C9: every block extracted by `parse_tf_blocks` starts at a line
that matches one of the two header patterns, which forces the kind keyword
at column zero of that line and an opening brace on the same line; hence an
indented header, or one whose opening brace falls on a later line, never
produces a block. -/
theorem claim_C9_theorem (lines : List String) :
    ∀ b ∈ parseBlocks lines,
      ∃ k, k < lines.length ∧ b.startIdx = k ∧
        headerMatches (lines.getD k ("")) = true ∧
        (∃ kw ∈ allKinds, kw.toList <+: (lines.getD k ("")).toList) ∧
        lbrace ∈ (lines.getD k ("")).toList := by
  intro b hb
  obtain ⟨k, hk, hs, hm⟩ := parseAux_start_header lines.length lines 0 b hb
  obtain ⟨kw, hkw, hpre, hbr⟩ := headerMatches_shape _ hm
  exact ⟨k, hk, by simpa using hs, hm, ⟨kw, hkw, hpre⟩, hbr⟩

/-- Witness for C9 on a two-line resource block. -/
theorem claim_C9_witness :
    ∃ k, k < ([("resource \x22a\x22 \x22b\x22 \x7b"), ("\x7d")] : List String).length ∧
      (Block.mk ("resource") (some ("a")) (some ("b"))
          [("resource \x22a\x22 \x22b\x22 \x7b"), ("\x7d")] 0 1).startIdx = k ∧
      headerMatches (([("resource \x22a\x22 \x22b\x22 \x7b"), ("\x7d")] :
          List String).getD k ("")) = true ∧
      (∃ kw ∈ allKinds, kw.toList <+:
        (([("resource \x22a\x22 \x22b\x22 \x7b"), ("\x7d")] :
            List String).getD k ("")).toList) ∧
      lbrace ∈ (([("resource \x22a\x22 \x22b\x22 \x7b"), ("\x7d")] :
          List String).getD k ("")).toList :=
  claim_C9_theorem [("resource \x22a\x22 \x22b\x22 \x7b"), ("\x7d")]
    (Block.mk ("resource") (some ("a")) (some ("b"))
      [("resource \x22a\x22 \x22b\x22 \x7b"), ("\x7d")] 0 1) (by decide)

/-- Claim C7: when the brace count never returns to balance, `extract_block`
still emits the block with every line from the header to end-of-input, and
`parse_tf_blocks` keeps such a block (here: as the single parsed block when
the input starts with a resource header), rather than discarding it. -/
theorem claim_C7_theorem (lines : List String) (h : neverCloses lines = true) :
    extractBlock lines = (lines, lines.length) ∧
    (∀ bt rt rn, lines ≠ [] →
      matchResourceHeader (lines.headD ("")) = some (bt, rt, rn) →
      parseBlocks lines =
        [{ block_type := bt, resource_type := some rt, resource_name := some rn,
           blines := lines, startIdx := 0, endIdx := lines.length - 1 }]) := by
  have hE : extractBlock lines = (lines, lines.length) :=
    extractBlockAux_of_neverCloses lines 0 false h
  refine ⟨hE, ?_⟩
  intro bt rt rn hne hm
  cases lines with
  | nil => exact absurd rfl hne
  | cons l rest =>
    simp only [List.headD_cons] at hm
    unfold parseBlocks
    simp only [List.length_cons, parseAux, hm, hE, List.drop_length]
    rw [show List.drop (rest.length + 1) (l :: rest) = [] from
      List.drop_length (l :: rest)]
    rw [parseAux_nil rest.length (0 + (rest.length + 1))]
    simp

/-- Witness for C7 on a truncated block. -/
theorem claim_C7_witness :
    extractBlock [("resource \x22a\x22 \x22b\x22 \x7b"), ("  x = 1")] =
      ([("resource \x22a\x22 \x22b\x22 \x7b"), ("  x = 1")], 2) ∧
    parseBlocks [("resource \x22a\x22 \x22b\x22 \x7b"), ("  x = 1")] =
      [Block.mk ("resource") (some ("a")) (some ("b"))
        [("resource \x22a\x22 \x22b\x22 \x7b"), ("  x = 1")] 0 1] := by
  have h := claim_C7_theorem [("resource \x22a\x22 \x22b\x22 \x7b"), ("  x = 1")]
    (by decide)
  exact ⟨h.1, h.2 ("resource") ("a") ("b") (by decide) (by decide)⟩

/-- Claim C5: (i) extracted blocks occupy ordered, pairwise-disjoint line
spans (so no block is emitted twice); (ii) every line matched by the header
grammar lies inside exactly one extracted block's span (the block it starts
or the block that encloses it); (iii) the resource/data blocks are
partitioned by the splitter: their number equals the number of bucket
assignments plus the number of skipped entries. -/
theorem claim_C5_theorem (lines : List String) (cfg : SplitConfig) :
    (∀ b ∈ parseBlocks lines, b.startIdx ≤ b.endIdx ∧ b.endIdx < lines.length) ∧
    List.Pairwise (fun a b => a.endIdx < b.startIdx) (parseBlocks lines) ∧
    (∀ k, k < lines.length → headerMatches (lines.getD k ("")) = true →
      ∃ b ∈ parseBlocks lines, b.startIdx ≤ k ∧ k ≤ b.endIdx) ∧
    ((parseBlocks lines).filter (fun b => isRD b)).length =
      ((splitLoop (build_type_to_file_map cfg) cfg.default_file cfg.skip_types
          (parseBlocks lines)).1).length +
      ((splitLoop (build_type_to_file_map cfg) cfg.default_file cfg.skip_types
          (parseBlocks lines)).2.2).length := by
  refine ⟨?_, parseAux_pairwise lines.length lines 0, ?_, ?_⟩
  · intro b hb
    have h := parseAux_span lines.length lines 0 b hb
    exact ⟨h.2.1, by have := h.2.2; omega⟩
  · intro k hk hm
    have h := parseAux_coverage lines.length lines 0 (le_refl lines.length) k hk hm
    simpa using h
  · rw [splitLoop_eq_filterMap]
    exact filter_isRD_length _ _ _ _

/-- Witness for C5 on a three-block input (resource, data, locals) with the
middle line of the resource block covered by its span. -/
theorem claim_C5_witness :
    (∃ b ∈ parseBlocks [("resource \x22aaa\x22 \x22n1\x22 \x7b"), ("x = 1"),
        ("\x7d"), ("locals \x7b"), ("\x7d")], b.startIdx ≤ 3 ∧ 3 ≤ b.endIdx) ∧
    ((parseBlocks [("resource \x22aaa\x22 \x22n1\x22 \x7b"), ("x = 1"),
        ("\x7d"), ("locals \x7b"), ("\x7d")]).filter (fun b => isRD b)).length =
      ((splitLoop (build_type_to_file_map (SplitConfig.mk [] ("other.tf") []))
          ("other.tf") [] (parseBlocks [("resource \x22aaa\x22 \x22n1\x22 \x7b"),
            ("x = 1"), ("\x7d"), ("locals \x7b"), ("\x7d")])).1).length +
      ((splitLoop (build_type_to_file_map (SplitConfig.mk [] ("other.tf") []))
          ("other.tf") [] (parseBlocks [("resource \x22aaa\x22 \x22n1\x22 \x7b"),
            ("x = 1"), ("\x7d"), ("locals \x7b"), ("\x7d")])).2.2).length := by
  have h := claim_C5_theorem [("resource \x22aaa\x22 \x22n1\x22 \x7b"), ("x = 1"),
    ("\x7d"), ("locals \x7b"), ("\x7d")] (SplitConfig.mk [] ("other.tf") [])
  exact ⟨h.2.2.1 3 (by decide) (by decide), h.2.2.2⟩

/-- Claim C6 counterexample: with a truncated final block
(`resource "bbb" "n2" {` never closed) and buckets written in sorted file
order (`a.tf` before `z.tf`), re-extracting the concatenated bucket outputs
loses the address `aaa.n1`: the unclosed block swallows the rest of the
concatenation. -/
theorem claim_C6_counterexample :
    (("aaa.n1") ∈ addressList (parseBlocks [("resource \x22aaa\x22 \x22n1\x22 \x7b"),
        ("\x7d"), ("resource \x22bbb\x22 \x22n2\x22 \x7b")])) ∧
    (("aaa.n1") ∉ addressList (parseBlocks (concatFilesLines
        ((splitFilesLines [("resource \x22aaa\x22 \x22n1\x22 \x7b"), ("\x7d"),
            ("resource \x22bbb\x22 \x22n2\x22 \x7b")]
          (SplitConfig.mk [(("z.tf"), [("aaa")]), (("a.tf"), [("bbb")])]
            ("other.tf") [])).map (fun p => p.2))))) :=
  ⟨by decide, by decide⟩

/-- Claim C6 (amended): the round trip holds for inputs whose extracted
blocks are all properly brace-balanced; then for ANY distribution of the
parsed blocks over bucket files, in any order (so in particular no block
skipped), concatenating the written files and re-extracting yields the same
set of resource/data addresses as the original extraction. -/
theorem claim_C6_theorem (lines : List String) (files : List (List Block))
    (hclosed : ∀ b ∈ parseBlocks lines, properClose b.blines = true)
    (hperm : files.flatten.Perm (parseBlocks lines)) :
    ∀ a, (a ∈ addressList (parseBlocks (concatFilesLines
          (files.map (fun f => fileLinesOf (f.map Block.blines))))) ↔
        a ∈ addressList (parseBlocks lines)) := by
  have hokAll : ∀ b ∈ parseBlocks lines, blockHeaderOk b = true :=
    fun b hb => parseAux_headerOk lines.length lines 0 b hb
  have hmem : ∀ b ∈ files.flatten,
      blockHeaderOk b = true ∧ properClose b.blines = true := by
    intro b hb
    have hb2 : b ∈ parseBlocks lines := hperm.mem_iff.mp hb
    exact ⟨hokAll b hb2, hclosed b hb2⟩
  have hcc : concatFilesLines (files.map (fun f => fileLinesOf (f.map Block.blines))) =
      (files.map (fun f => interBlanks (f.map Block.blines))).flatten ++ [("")] := by
    unfold concatFilesLines fileLinesOf
    congr 1
    rw [List.map_map]
    have hfn : ∀ g ∈ files, (List.dropLast ∘ fun f =>
        interBlanks (List.map Block.blines f) ++ [("")]) g =
        interBlanks (List.map Block.blines g) := by
      intro g _
      simp [List.dropLast_concat]
    rw [List.map_congr_left hfn]
  rw [hcc]
  have hH2 := metaList_parse_files files
    (fun cs hcs b hb => hmem b (List.mem_flatten.mpr ⟨cs, hcs, hb⟩))
  have haddr : ∀ bs : List Block,
      addressList bs = (metaList bs).filterMap addrMeta := by
    intro bs
    unfold addressList metaList
    rw [List.filterMap_map]
    rfl
  intro a
  rw [haddr, haddr, hH2]
  have hflat : (files.map (fun cs => cs.map blockMeta)).flatten =
      files.flatten.map blockMeta := (List.map_flatten blockMeta files).symm
  rw [hflat]
  unfold metaList
  have hp2 : ((files.flatten.map blockMeta).filterMap addrMeta).Perm
      (((parseBlocks lines).map blockMeta).filterMap addrMeta) :=
    (hperm.map blockMeta).filterMap addrMeta
  exact hp2.mem_iff

/-- Witness for C6: two balanced blocks distributed over two files in
swapped order round-trip to the same address set. -/
theorem claim_C6_witness :
    (("aaa.n1") ∈ addressList (parseBlocks (concatFilesLines
        ([[Block.mk ("locals") none none [("locals \x7b"), ("\x7d")] 2 3],
          [Block.mk ("resource") (some ("aaa")) (some ("n1"))
            [("resource \x22aaa\x22 \x22n1\x22 \x7b"), ("\x7d")] 0 1]].map
          (fun f => fileLinesOf (f.map Block.blines)))))
      ↔ ("aaa.n1") ∈ addressList (parseBlocks
          [("resource \x22aaa\x22 \x22n1\x22 \x7b"), ("\x7d"),
            ("locals \x7b"), ("\x7d")])) :=
  claim_C6_theorem
    [("resource \x22aaa\x22 \x22n1\x22 \x7b"), ("\x7d"), ("locals \x7b"), ("\x7d")]
    [[Block.mk ("locals") none none [("locals \x7b"), ("\x7d")] 2 3],
      [Block.mk ("resource") (some ("aaa")) (some ("n1"))
        [("resource \x22aaa\x22 \x22n1\x22 \x7b"), ("\x7d")] 0 1]]
    (by decide) (by decide) ("aaa.n1")

/-- Claim C3: in a parsed unit, every dependency edge (source, target) has a
target that is distinct from its source (no self-edges), is the address of a
resource block extracted from the same unit, and whose first dotted segment
is not a reserved word (var/local/data/module/each/count); in particular a
token like `nsg.id` with no block of type `nsg` yields no edge. -/
theorem claim_C3_theorem (content : String) :
    ∀ p ∈ (parseUnit content).dependencies, ∀ t ∈ p.2,
      t ≠ p.1 ∧
      ((parseUnit content).resources.any (fun q => q.1 = t) = true) ∧
      String.mk (t.toList.takeWhile (fun c => !(c = dotChar))) ∉ reservedWords := by
  intro p hp t ht
  have hdeps : (parseUnit content).dependencies =
      extractDependencies (parseUnit content).resources := rfl
  rw [hdeps] at hp
  unfold extractDependencies at hp
  rcases List.mem_filterMap.mp hp with ⟨q, hq, hsome⟩
  by_cases hds : (depsForBody (parseUnit content).resources q.1 q.2).isEmpty
  · rw [if_pos hds] at hsome
    cases hsome
  · rw [if_neg hds] at hsome
    injection hsome with hsome
    have hp1 : p.1 = q.1 := by rw [← hsome]
    have hp2 : p.2 = depsForBody (parseUnit content).resources q.1 q.2 := by
      rw [← hsome]
    rw [hp2] at ht
    unfold depsForBody at ht
    rcases depsFold_mem (parseUnit content).resources q.1 (findRefs q.2) [] t ht with
      h0 | ⟨pr, hpr, hres, hany, hteq, htne⟩
    · cases h0
    · refine ⟨by rw [hp1]; exact htne, by rw [hteq]; exact hany, ?_⟩
      obtain ⟨hne, hg1⟩ := findRefsAux_g1 q.2.toList.length q.2.toList false pr.1 pr.2 hpr
      have htl : t.toList = pr.1.toList ++ dotChar :: pr.2.toList := by
        rw [hteq]
        have h1 : (pr.1 ++ (".") ++ pr.2).data =
            pr.1.data ++ (".").data ++ pr.2.data := by
          rw [String.data_append, String.data_append]
        show (pr.1 ++ (".") ++ pr.2).data = pr.1.data ++ dotChar :: pr.2.data
        rw [h1, List.append_assoc]
        rfl
      rw [htl, takeWhile_append_dot pr.1.toList pr.2.toList hg1]
      have hmk : String.mk pr.1.toList = pr.1 := by
        cases pr.1
        rfl
      rw [hmk]
      intro hmem
      have : reservedWords.contains pr.1 = true := by simpa using hmem
      rw [this] at hres
      cases hres

/-- Witness for C3 on a unit with the real edge `t.a → t.b`. -/
theorem claim_C3_witness :
    (("t.b") ≠ ("t.a")) ∧
    ((parseUnit ("resource \x22t\x22 \x22a\x22 \x7b\n  s = t.b\n\x7d\nresource \x22t\x22 \x22b\x22 \x7b\n\x7d\n")).resources.any
      (fun q => q.1 = ("t.b")) = true) ∧
    String.mk ((("t.b") : String).toList.takeWhile (fun c => !(c = dotChar))) ∉
      reservedWords :=
  claim_C3_theorem
    ("resource \x22t\x22 \x22a\x22 \x7b\n  s = t.b\n\x7d\nresource \x22t\x22 \x22b\x22 \x7b\n\x7d\n")
    ((("t.a"), [("t.b")])) (by decide) ("t.b") (by decide)

/-- Claim C8: the text tree's root set is exactly the addresses with no
incoming dependency edge; when it is empty the fallback picks `min 3 n`
addresses whose outgoing-edge counts are minimal among all addresses; and
the traversal's shared visited set guarantees that no address is emitted
(expanded) more than once across all root traversals. -/
theorem claim_C8_theorem (st : DepState) :
    (∀ a, a ∈ rootsOf st ↔ (a ∈ st.resources.map (fun p => p.1) ∧
        ∀ p ∈ st.dependencies, a ∉ p.2)) ∧
    (rootsOf st = [] →
      ((treeRootsSel st).length = min 3 st.resources.length ∧
        ∀ a ∈ treeRootsSel st, ∀ b ∈ st.resources.map (fun p => p.1),
          b ∉ treeRootsSel st → outDeg st a ≤ outDeg st b)) ∧
    ((textTreeNodes st).map Prod.snd).Nodup := by
  refine ⟨?_, ?_, ?_⟩
  · intro a
    unfold rootsOf allDepsOf
    rw [List.mem_filter]
    constructor
    · rintro ⟨h1, h2⟩
      refine ⟨h1, ?_⟩
      intro p hp hmem
      have : a ∈ ((st.dependencies.map (fun p => p.2)).flatten) :=
        List.mem_flatten.mpr ⟨p.2, List.mem_map.mpr ⟨p, hp, rfl⟩, hmem⟩
      simp only [Bool.not_eq_true'] at h2
      have h3 : ((st.dependencies.map (fun p => p.2)).flatten.contains a) = true := by
        simpa using this
      rw [h3] at h2
      cases h2
    · rintro ⟨h1, h2⟩
      refine ⟨h1, ?_⟩
      simp only [Bool.not_eq_true']
      rw [show ∀ l : List String, ∀ x, (l.contains x = false) = (x ∉ l) from
        fun l x => by simp]
      intro hmem
      rcases List.mem_flatten.mp hmem with ⟨l, hl, hal⟩
      rcases List.mem_map.mp hl with ⟨p, hp, hpl⟩
      exact h2 p hp (by rw [hpl]; exact hal)
  · intro hroot
    have hsel : treeRootsSel st =
        (sortLe (fun a b => decide (outDeg st a ≤ outDeg st b))
          (st.resources.map (fun p => p.1))).take 3 := by
      unfold treeRootsSel
      rw [hroot]
      rfl
    have hperm := sortLe_perm (fun a b => decide (outDeg st a ≤ outDeg st b))
      (st.resources.map (fun p => p.1))
    have hsorted := sortLe_pairwise (fun a b => decide (outDeg st a ≤ outDeg st b))
      (fun a b c hab hbc => by
        rw [decide_eq_true_eq] at hab hbc ⊢
        omega)
      (fun a b => by
        rcases Nat.le_total (outDeg st a) (outDeg st b) with h | h
        · exact Or.inl (by rw [decide_eq_true_eq]; exact h)
        · exact Or.inr (by rw [decide_eq_true_eq]; exact h))
      (st.resources.map (fun p => p.1))
    constructor
    · rw [hsel, List.length_take, hperm.length_eq, List.length_map]
    · intro a ha b hb hbn
      rw [hsel] at ha hbn
      have hbS : b ∈ sortLe (fun a b => decide (outDeg st a ≤ outDeg st b))
          (st.resources.map (fun p => p.1)) := hperm.mem_iff.mpr hb
      rw [← List.take_append_drop 3 (sortLe (fun a b =>
        decide (outDeg st a ≤ outDeg st b)) (st.resources.map (fun p => p.1)))]
        at hbS hsorted
      rcases List.mem_append.mp hbS with hbT | hbD
      · exact absurd hbT hbn
      · have := (List.pairwise_append.mp hsorted).2.2 a ha b hbD
        rw [decide_eq_true_eq] at this
        exact this
  · exact ((printTree_inv st.dependencies (textTreeFuel st)).2
      (treeRootsIter st) ("") []).1

/-- Witness for C8 on a fully cyclic unit (`t.a ↔ t.b`): no roots exist and
the fallback selects both addresses. -/
theorem claim_C8_witness :
    ((treeRootsSel (parseUnit ("resource \x22t\x22 \x22a\x22 \x7b\n  s = t.b\n\x7d\nresource \x22t\x22 \x22b\x22 \x7b\n  s = t.a\n\x7d\n"))).length =
      min 3 (parseUnit ("resource \x22t\x22 \x22a\x22 \x7b\n  s = t.b\n\x7d\nresource \x22t\x22 \x22b\x22 \x7b\n  s = t.a\n\x7d\n")).resources.length ∧
      ∀ a ∈ treeRootsSel (parseUnit ("resource \x22t\x22 \x22a\x22 \x7b\n  s = t.b\n\x7d\nresource \x22t\x22 \x22b\x22 \x7b\n  s = t.a\n\x7d\n")),
        ∀ b ∈ (parseUnit ("resource \x22t\x22 \x22a\x22 \x7b\n  s = t.b\n\x7d\nresource \x22t\x22 \x22b\x22 \x7b\n  s = t.a\n\x7d\n")).resources.map (fun p => p.1),
          b ∉ treeRootsSel (parseUnit ("resource \x22t\x22 \x22a\x22 \x7b\n  s = t.b\n\x7d\nresource \x22t\x22 \x22b\x22 \x7b\n  s = t.a\n\x7d\n")) →
            outDeg (parseUnit ("resource \x22t\x22 \x22a\x22 \x7b\n  s = t.b\n\x7d\nresource \x22t\x22 \x22b\x22 \x7b\n  s = t.a\n\x7d\n")) a ≤
              outDeg (parseUnit ("resource \x22t\x22 \x22a\x22 \x7b\n  s = t.b\n\x7d\nresource \x22t\x22 \x22b\x22 \x7b\n  s = t.a\n\x7d\n")) b) :=
  (claim_C8_theorem (parseUnit ("resource \x22t\x22 \x22a\x22 \x7b\n  s = t.b\n\x7d\nresource \x22t\x22 \x22b\x22 \x7b\n  s = t.a\n\x7d\n"))).2.1
    (by decide)

/-- Claim C10 counterexample: on a unit with an isolated block `t.x` and a
cycle `t.a ↔ t.b`, the text-tree rendering starts from the single root `t.x`
and never lists `t.a` — so not EVERY graph rendering contains each address
exactly once. -/
theorem claim_C10_counterexample :
    (("t.a") ∈ (parseUnit ("resource \x22t\x22 \x22x\x22 \x7b\n\x7d\nresource \x22t\x22 \x22a\x22 \x7b\n  s = t.b\n\x7d\nresource \x22t\x22 \x22b\x22 \x7b\n  s = t.a\n\x7d\n")).resources.map
      (fun p => p.1)) ∧
    (("t.a") ∉ (textTreeNodes (parseUnit ("resource \x22t\x22 \x22x\x22 \x7b\n\x7d\nresource \x22t\x22 \x22a\x22 \x7b\n  s = t.b\n\x7d\nresource \x22t\x22 \x22b\x22 \x7b\n  s = t.a\n\x7d\n"))).map
      Prod.snd) :=
  ⟨by decide, by decide⟩

/-- Claim C10 (amended): the parsed resource map has exactly one entry per
address (keys are duplicate-free; an address is present iff some matched
block declares it) holding the LAST-seen body for that address; the DOT and
Mermaid renderings list each address as a node exactly once; the text tree
lists each address at most once (it may omit addresses unreachable from the
chosen roots). -/
theorem claim_C10_theorem (content : String) :
    (((parseUnit content).resources.map (fun p => p.1)).Nodup) ∧
    (∀ k, k ∈ (parseUnit content).resources.map (fun p => p.1) ↔
      ∃ m ∈ findResourceBlocks content, m.1 ++ (".") ++ m.2.1 = k) ∧
    (∀ k, dictLookup (parseUnit content).resources k =
      match (findResourceBlocks content).reverse.find?
          (fun m => m.1 ++ (".") ++ m.2.1 = k) with
      | some m => some m.2.2
      | none => none) ∧
    dotNodeIds (parseUnit content) =
      (parseUnit content).resources.map (fun p => p.1) ∧
    mermaidNodeIds (parseUnit content) =
      (parseUnit content).resources.map (fun p => p.1) ∧
    ((textTreeNodes (parseUnit content)).map Prod.snd).Nodup := by
  have hres : (parseUnit content).resources =
      buildResources (findResourceBlocks content) := rfl
  refine ⟨?_, ?_, ?_, rfl, rfl, ?_⟩
  · rw [hres]
    unfold buildResources
    exact buildRes_keys_nodup (findResourceBlocks content) [] (by simp)
  · intro k
    rw [hres]
    unfold buildResources
    rw [buildRes_keys_mem (findResourceBlocks content) [] k]
    simp
  · intro k
    rw [hres]
    unfold buildResources
    rw [buildRes_lookup (findResourceBlocks content) [] k]
    cases hf : (findResourceBlocks content).reverse.find?
        (fun m => m.1 ++ (".") ++ m.2.1 = k) with
    | some m => rfl
    | none => rfl
  · exact ((printTree_inv (parseUnit content).dependencies
      (textTreeFuel (parseUnit content))).2
      (treeRootsIter (parseUnit content)) ("") []).1

/-- Witness for C10 on a unit where `t.a` is declared twice: one entry, with
the second (last-seen) body. -/
theorem claim_C10_witness :
    ((parseUnit ("resource \x22t\x22 \x22a\x22 \x7b q1 \x7d\nresource \x22t\x22 \x22a\x22 \x7b q2 \x7d\n")).resources.map
      (fun p => p.1)).Nodup ∧
    dictLookup (parseUnit ("resource \x22t\x22 \x22a\x22 \x7b q1 \x7d\nresource \x22t\x22 \x22a\x22 \x7b q2 \x7d\n")).resources
      ("t.a") = some (" q2 ") := by
  have h := claim_C10_theorem
    ("resource \x22t\x22 \x22a\x22 \x7b q1 \x7d\nresource \x22t\x22 \x22a\x22 \x7b q2 \x7d\n")
  refine ⟨h.1, ?_⟩
  rw [h.2.2.1 ("t.a")]
  decide
